import Mathlib

/-!
Verification development for bincalc (src/bincalc.cpp), a binary calculator
over fixed-width integer and floating-point encodings.

The C program is shallowly embedded: the input line is a `List Char`
(the NUL-terminated C string without its terminator; reading at or past the
end of the list yields the NUL character `'\x00'`, exactly as reading the
terminator of a C string), the cursor is a `Nat` index into that list, and
machine integers are `Nat` bit patterns reduced modulo `2 ^ width` with a
signed or unsigned interpretation function.  Exceptions
(`parse_error`, `range_error`) become an `Except` error carrying the cursor
position at the moment of the throw, which is the position the caller's
caret rendering uses.  Division by zero, the `INT_MIN / -1` hardware trap
and out-of-range shift amounts, which abort or are unspecified in the C
program, are a distinguished `undefined` outcome.  The recursive-descent
parser is given an explicit fuel argument; exhausting fuel (which models
exhausting the call stack, impossible for fuel larger than the input
length plus two) is the distinguished `no_fuel` outcome.

The IEEE-754 binary operations and the literal-to-binary rounding performed
by the C library (`strtof`, `strtod`, float `+ - * /`, `printf` of floats)
are not reimplemented bit by bit: they are fields of a `float_model`
parameter, so every theorem quantified over the `float_model` holds for the
true IEEE functions in particular.  What the C standard pins down about
`strtof` and `strtod` -- the syntax consumed (decimal/scientific,
hexadecimal `0x...p...`, infinity and NaN forms), the cursor movement, and
that overflow stores `ERANGE` in `errno` -- is modelled concretely; the
implementation-defined `ERANGE` store on underflow (which the real
libraries perform) is a further Boolean oracle field of the `float_model`.
-/

/-- Encodings of the calculator: the ten-variant `encoding_t` enum of the
source (`INVALID_ENCODING` is represented separately, as the absence of an
encoding in `encoded_value`). -/
inductive encoding_t
| S8 | S16 | S32 | S64
| U8 | U16 | U32 | U64
| F32 | F64
deriving DecidableEq

open encoding_t

/-- Bit width of each encoding's payload. -/
def width : encoding_t → Nat
| S8 => 8 | S16 => 16 | S32 => 32 | S64 => 64
| U8 => 8 | U16 => 16 | U32 => 32 | U64 => 64
| F32 => 32 | F64 => 64

/-- Signed integer encodings. -/
def is_signed : encoding_t → Bool
| S8 => true | S16 => true | S32 => true | S64 => true
| _ => false

/-- Floating-point encodings. -/
def is_float : encoding_t → Bool
| F32 => true | F64 => true
| _ => false

/-- Smallest representable value of an integer encoding (`INT8_MIN` etc.;
unused for float encodings). -/
def emin : encoding_t → Int
| S8 => -(2 ^ 7) | S16 => -(2 ^ 15) | S32 => -(2 ^ 31) | S64 => -(2 ^ 63)
| _ => 0

/-- Largest representable value of an integer encoding (`INT8_MAX`,
`UINT8_MAX` etc.; unused for float encodings). -/
def emax : encoding_t → Int
| S8 => 2 ^ 7 - 1 | S16 => 2 ^ 15 - 1 | S32 => 2 ^ 31 - 1 | S64 => 2 ^ 63 - 1
| U8 => 2 ^ 8 - 1 | U16 => 2 ^ 16 - 1 | U32 => 2 ^ 32 - 1 | U64 => 2 ^ 64 - 1
| _ => 0

/-- Tagged value of the source's `encoded_value` struct: an encoding tag and
the raw bits of the union payload.  `encoding = none` models
`INVALID_ENCODING`, the "absent value" tag. -/
structure encoded_value where
  encoding : Option encoding_t
  bits : Nat
deriving DecidableEq

/-- Distinguished absent value (`INVALID_VALUE` in the source,
zero-initialised apart from its tag). -/
def INVALID_VALUE : encoded_value := ⟨none, 0⟩

/-- Operator tokens, in the declaration order of the source's `operator_t`
enum (which is also the scan order of `parse_operator`). -/
inductive operator_t
| OPEN_PAREN
| NOT
| NEGATE
| MULTIPLY
| DIVIDE
| MODULUS
| ADD
| SUBTRACT
| LEFT_SHIFT
| RIGHT_SHIFT
| AND
| XOR
| OR
| CLOSE_PAREN
| END_EXPRESSION
deriving DecidableEq

open operator_t

/-- Operator arity classes. -/
inductive arity_t
| UNARY
| BINARY
| SENTINEL
deriving DecidableEq

open arity_t

/-- Row of the operator table: precedence, arity, identifier text.  The
`END_EXPRESSION` identifier is the empty string (the C literal is the string
whose first character is NUL). -/
structure op_entry where
  precedence : Nat
  arity : arity_t
  identifier : List Char

/-- Static operator table of the source, one entry per `operator_t` value. -/
def operator_table : operator_t → op_entry
| OPEN_PAREN => ⟨8, UNARY, ['(']⟩
| NOT => ⟨7, UNARY, ['~']⟩
| NEGATE => ⟨7, UNARY, ['-']⟩
| MULTIPLY => ⟨6, BINARY, ['*']⟩
| DIVIDE => ⟨6, BINARY, ['/']⟩
| MODULUS => ⟨6, BINARY, ['%']⟩
| ADD => ⟨5, BINARY, ['+']⟩
| SUBTRACT => ⟨5, BINARY, ['-']⟩
| LEFT_SHIFT => ⟨4, BINARY, ['<', '<']⟩
| RIGHT_SHIFT => ⟨4, BINARY, ['>', '>']⟩
| AND => ⟨3, BINARY, ['&']⟩
| XOR => ⟨2, BINARY, ['^']⟩
| OR => ⟨1, BINARY, ['|']⟩
| CLOSE_PAREN => ⟨0, SENTINEL, [')']⟩
| END_EXPRESSION => ⟨0, SENTINEL, []⟩

/-- Scan order of `parse_operator`: enum values `0 ..= 14`. -/
def op_list : List operator_t :=
[OPEN_PAREN, NOT, NEGATE, MULTIPLY, DIVIDE, MODULUS, ADD, SUBTRACT,
 LEFT_SHIFT, RIGHT_SHIFT, AND, XOR, OR, CLOSE_PAREN, END_EXPRESSION]

/-- Faults of the evaluator.  `parse_error` and `range_error` are the two
exception types of the source, carrying the cursor position at the throw.
`undefined` marks executions that crash or are unspecified in C (division
by zero, the `INT_MIN / -1` trap, out-of-range shift amounts).  `no_fuel`
marks exhaustion of the recursion budget of the embedding (the analogue of
exhausting the C call stack; never reached for fuel beyond the input
length). -/
inductive calc_error
| parse_error (pos : Nat)
| range_error (pos : Nat)
| undefined
| no_fuel
deriving DecidableEq

/-- Character read of the C string at index `i`: past the end of the list
stands the NUL terminator. -/
def peek (s : List Char) (i : Nat) : Char :=
  if h : i < s.length then s.get ⟨i, h⟩ else '\x00'

/-- White space recognised by `isspace` in the C locale. -/
def c_isspace (c : Char) : Bool :=
  c = ' ' || c = '\t' || c = '\n' || c = '\x0b' || c = '\x0c' || c = '\r'

/-- Decimal digit test (`isdigit`). -/
def c_isdigit (c : Char) : Bool :=
  '0' ≤ c && c ≤ '9'

/-- Hexadecimal digit test (`isxdigit`). -/
def c_isxdigit (c : Char) : Bool :=
  c_isdigit c || ('a' ≤ c && c ≤ 'f') || ('A' ≤ c && c ≤ 'F')

/-- Numeric value of a hex digit, `0` for other characters
(`digit_to_int` of the source). -/
def digit_to_int (c : Char) : Nat :=
  if '0' ≤ c ∧ c ≤ '9' then c.toNat - '0'.toNat
  else if 'a' ≤ c ∧ c ≤ 'f' then c.toNat - 'a'.toNat + 10
  else if 'A' ≤ c ∧ c ≤ 'F' then c.toNat - 'A'.toNat + 10
  else 0

/-- Fueled body of `skip_whitespace`; the fuel only bounds the loop and is
always ample at `s.length + 1` since every advance stays inside the list. -/
def skip_ws_go (s : List Char) : Nat → Nat → Nat
| 0, pos => pos
| fuel + 1, pos => if c_isspace (peek s pos) then skip_ws_go s fuel (pos + 1) else pos

/-- Cursor advance over leading white space (`skip_whitespace` of the
source). -/
def skip_whitespace (s : List Char) (pos : Nat) : Nat :=
  skip_ws_go s (s.length + 1) pos

/-- Fueled decimal-digit accumulation loop shared by the `strtoll` and
`strtoull` models: consumes digits, multiplying the accumulator by ten. -/
def digits_go (s : List Char) : Nat → Nat → Nat → Nat × Nat
| 0, pos, acc => (acc, pos)
| fuel + 1, pos, acc =>
  if c_isdigit (peek s pos) then
    digits_go s fuel (pos + 1) (acc * 10 + digit_to_int (peek s pos))
  else (acc, pos)

/-- Decimal digit run starting at `pos`: exact accumulated value and the
position one past the last digit. -/
def parse_digits (s : List Char) (pos : Nat) : Nat × Nat :=
  digits_go s (s.length + 1) pos 0

/-- Value of `INT64_MAX`. -/
def INT64_MAX : Int := 2 ^ 63 - 1

/-- Value of `INT64_MIN`. -/
def INT64_MIN : Int := -(2 ^ 63)

/-- Value of `UINT64_MAX`. -/
def UINT64_MAX : Nat := 2 ^ 64 - 1

/-- Models the C library function `strtoll(cursor, &cursor, 10)` per C99:
skip white space, optional sign, a nonempty digit run; without digits there
is no conversion and the end pointer is the *original* argument.  The result
is the exact value clamped to `[INT64_MIN, INT64_MAX]`; clamping stores
`ERANGE` (the returned Bool).  Returns (value, new cursor, erange). -/
def strtoll_model (s : List Char) (pos : Nat) : Int × Nat × Bool :=
  let p := skip_whitespace s pos
  let neg := peek s p = '-'
  let p1 := if peek s p = '-' ∨ peek s p = '+' then p + 1 else p
  if c_isdigit (peek s p1) then
    let (m, p2) := parse_digits s p1
    let v : Int := if neg then -(m : Int) else (m : Int)
    if v < INT64_MIN then (INT64_MIN, p2, true)
    else if v > INT64_MAX then (INT64_MAX, p2, true)
    else (v, p2, false)
  else (0, pos, false)

/-- Models the C library function `strtoull(cursor, &cursor, 10)` per C99:
as `strtoll` but unsigned; a minus sign negates the converted value modulo
`2 ^ 64`, and only a magnitude beyond `UINT64_MAX` clamps and stores
`ERANGE`. -/
def strtoull_model (s : List Char) (pos : Nat) : Nat × Nat × Bool :=
  let p := skip_whitespace s pos
  let neg := peek s p = '-'
  let p1 := if peek s p = '-' ∨ peek s p = '+' then p + 1 else p
  if c_isdigit (peek s p1) then
    let (m, p2) := parse_digits s p1
    if m > UINT64_MAX then (UINT64_MAX, p2, true)
    else if neg then ((2 ^ 64 - m) % 2 ^ 64, p2, false)
    else (m, p2, false)
  else (0, pos, false)

/-- Signed decimal literal parse of the source (`parse_int`): `strtoll`
followed by the `[min, max]` range check that stores `ERANGE`. -/
def parse_int (s : List Char) (pos : Nat) (min max : Int) : Int × Nat × Bool :=
  let (v, p, er) := strtoll_model s pos
  (v, p, er || decide (v < min) || decide (v > max))

/-- Unsigned decimal literal parse of the source (`parse_uint`): a leading
minus sign directly followed by a digit stores `ERANGE` at once (cursor
unmoved); otherwise `strtoull` followed by the `max` check. -/
def parse_uint (s : List Char) (pos : Nat) (max : Nat) : Nat × Nat × Bool :=
  if peek s pos = '-' ∧ c_isdigit (peek s (pos + 1)) then (0, pos, true)
  else
    let (v, p, er) := strtoull_model s pos
    (v, p, er || decide (v > max))

/-- Fueled loop over the zero-skip of `strtox` (`while (*cursor == '0')`). -/
def skip_zeros_go (s : List Char) : Nat → Nat → Nat
| 0, pos => pos
| fuel + 1, pos => if peek s pos = '0' then skip_zeros_go s fuel (pos + 1) else pos

/-- Digit loop of `strtox`: `remaining` counts down from `max_digits`.  On
entry the cursor stands on a hex digit.  Each step adds the digit, advances,
returns on a non-hex follower, otherwise shifts by four bits (a `uint64_t`
shift, hence the modulus) and continues; exhausting `remaining` with a hex
digit still pending stores `ERANGE` and returns 0.  Returns
(value, new cursor, erange). -/
def strtox_go (s : List Char) : Nat → Nat → Nat → Nat × Nat × Bool
| 0, pos, _ => (0, pos, true)
| remaining + 1, pos, value =>
  let v := value + digit_to_int (peek s pos)
  if c_isxdigit (peek s (pos + 1)) then
    strtox_go s remaining (pos + 1) ((v <<< 4) % 2 ^ 64)
  else (v, pos + 1, false)

/-- Hex literal scan of the source (`strtox`): requires `x` followed by a
hex digit, skips leading zero digits, then accumulates at most `max_digits`
significant digits. -/
def strtox (s : List Char) (pos : Nat) (max_digits : Nat) : Nat × Nat × Bool :=
  if peek s pos = 'x' ∧ c_isxdigit (peek s (pos + 1)) then
    let p := skip_zeros_go s (s.length + 1) (pos + 1)
    if c_isxdigit (peek s p) then strtox_go s max_digits p 0
    else (0, p, false)
  else (0, pos, false)

/-- Exact payload recognised by `strtof`/`strtod`: a finite decimal value
`± m * 10 ^ e10`, a finite hexadecimal value `± m * 2 ^ e2`, an infinity,
or a NaN. -/
inductive float_lit
| finite (m : Nat) (e10 : Int)
| hexfinite (m : Nat) (e2 : Int)
| inf
| nan
deriving DecidableEq

/-- Case-insensitive fixed-word match at a cursor position. -/
def match_ci (s : List Char) : Nat → List Char → Bool
| _, [] => true
| pos, c :: cs => (peek s pos).toLower = c && match_ci s (pos + 1) cs

/-- Optional exponent part of a float literal (`e`/`E`, optional sign, at
least one digit; otherwise nothing is consumed). -/
def float_exp (s : List Char) (p : Nat) : Int × Nat :=
  if peek s p = 'e' ∨ peek s p = 'E' then
    let q := p + 1
    let eneg := peek s q = '-'
    let q1 := if peek s q = '-' ∨ peek s q = '+' then q + 1 else q
    if c_isdigit (peek s q1) then
      let (ev, q2) := parse_digits s q1
      ((if eneg then -(ev : Int) else (ev : Int)), q2)
    else (0, p)
  else (0, p)

/-- Fueled hex-digit accumulation loop for the hexadecimal float form of
`strtof`/`strtod`, the base-16 analogue of `digits_go`. -/
def xdigits_go (s : List Char) : Nat → Nat → Nat → Nat × Nat
| 0, pos, acc => (acc, pos)
| fuel + 1, pos, acc =>
  if c_isxdigit (peek s pos) then
    xdigits_go s fuel (pos + 1) (acc * 16 + digit_to_int (peek s pos))
  else (acc, pos)

/-- Hex digit run starting at `pos`: exact accumulated value and the
position one past the last digit. -/
def parse_xdigits (s : List Char) (pos : Nat) : Nat × Nat :=
  xdigits_go s (s.length + 1) pos 0

/-- Optional binary exponent part of a hexadecimal float literal (`p`/`P`,
optional sign, at least one decimal digit; otherwise nothing is
consumed). -/
def float_p_exp (s : List Char) (p : Nat) : Int × Nat :=
  if peek s p = 'p' ∨ peek s p = 'P' then
    let q := p + 1
    let eneg := peek s q = '-'
    let q1 := if peek s q = '-' ∨ peek s q = '+' then q + 1 else q
    if c_isdigit (peek s q1) then
      let (ev, q2) := parse_digits s q1
      ((if eneg then -(ev : Int) else (ev : Int)), q2)
    else (0, p)
  else (0, p)

/-- Subject sequence recognised by `strtof`/`strtod` per C99: optional
white space and sign, then `infinity`/`inf`/`nan` (case-insensitive; the
optional parenthesised NaN payload sequence is not modelled, no claim
concerns it), the hexadecimal form `0x`/`0X` followed by a nonempty hex
digit run optionally containing a period and an optional `p` binary
exponent, or a decimal mantissa with optional fraction and `e` exponent.
`none` means no conversion (the end pointer stays at the original
position).  Returns the payload, the sign, and the position one past the
consumed sequence. -/
def parse_float_lit (s : List Char) (pos : Nat) : Option (float_lit × Bool × Nat) :=
  let p := skip_whitespace s pos
  let neg := peek s p = '-'
  let p1 := if peek s p = '-' ∨ peek s p = '+' then p + 1 else p
  if match_ci s p1 ['i', 'n', 'f', 'i', 'n', 'i', 't', 'y'] then some (.inf, neg, p1 + 8)
  else if match_ci s p1 ['i', 'n', 'f'] then some (.inf, neg, p1 + 3)
  else if match_ci s p1 ['n', 'a', 'n'] then some (.nan, neg, p1 + 3)
  else if peek s p1 = '0' ∧ (peek s (p1 + 1) = 'x' ∨ peek s (p1 + 1) = 'X') ∧
      (c_isxdigit (peek s (p1 + 2)) = true ∨
       (peek s (p1 + 2) = '.' ∧ c_isxdigit (peek s (p1 + 3)) = true)) then
    let (ip, p2) := parse_xdigits s (p1 + 2)
    if peek s p2 = '.' then
      let (fp, p3) := parse_xdigits s (p2 + 1)
      let m := ip * 16 ^ (p3 - (p2 + 1)) + fp
      let (ev, p4) := float_p_exp s p3
      some (.hexfinite m (ev - 4 * ((p3 - (p2 + 1) : Nat) : Int)), neg, p4)
    else
      let (ev, p4) := float_p_exp s p2
      some (.hexfinite ip ev, neg, p4)
  else
    let (ip, p2) := parse_digits s p1
    if peek s p2 = '.' then
      let (fp, p3) := parse_digits s (p2 + 1)
      if p2 = p1 ∧ p3 = p2 + 1 then none
      else
        let m := ip * 10 ^ (p3 - (p2 + 1)) + fp
        let (ev, p4) := float_exp s p3
        some (.finite m (ev - (p3 - (p2 + 1) : Nat)), neg, p4)
    else
      if p2 = p1 then none
      else
        let (ev, p4) := float_exp s p2
        some (.finite ip ev, neg, p4)

/-- IEEE-754 oracle: the decimal-to-binary and hexadecimal-to-binary
rounding of `strtof`/`strtod`, the binary float operations, and the
decimal rendering of `printf` are deterministic pure functions of their
operands, supplied as parameters; theorems quantified over a
`float_model` hold for the true IEEE functions in particular.  The
`uflow` fields are the implementation-defined underflow decision of the
C library: C99 makes the `ERANGE` store on underflow optional, and the
real libraries (glibc among them) do store it for literals whose rounded
result underflows, so whether a given finite literal stores `ERANGE` on
this path is a Boolean function of the literal's exact value, carried by
the oracle exactly like the rounding itself. -/
structure float_model where
  f32_of_dec : Bool → Nat → Int → Nat
  f64_of_dec : Bool → Nat → Int → Nat
  f32_bin : operator_t → Nat → Nat → Nat
  f64_bin : operator_t → Nat → Nat → Nat
  f32_str : Nat → String
  f64_str : Nat → String
  f32_of_hex : Bool → Nat → Int → Nat
  f64_of_hex : Bool → Nat → Int → Nat
  f32_uflow_dec : Nat → Int → Bool
  f64_uflow_dec : Nat → Int → Bool
  f32_uflow_hex : Nat → Int → Bool
  f64_uflow_hex : Nat → Int → Bool

/-- Bit pattern of the single-precision infinities (`HUGE_VALF`). -/
def f32_inf_bits (neg : Bool) : Nat := if neg then 0xff800000 else 0x7f800000

/-- Bit pattern of the double-precision infinities (`HUGE_VAL`). -/
def f64_inf_bits (neg : Bool) : Nat := if neg then 0xfff0000000000000 else 0x7ff0000000000000

/-- Bit pattern of the default quiet NaN produced for the `nan` form. -/
def f32_nan_bits (neg : Bool) : Nat := if neg then 0xffc00000 else 0x7fc00000

/-- Bit pattern of the default quiet double NaN. -/
def f64_nan_bits (neg : Bool) : Nat := if neg then 0xfff8000000000000 else 0x7ff8000000000000

/-- Overflow threshold of round-to-nearest-even conversion: magnitudes at
or above it round to infinity, which is the C99 overflow case storing
`ERANGE`.  For binary32 the threshold is `2 ^ 128 - 2 ^ 103`, for binary64
`2 ^ 1024 - 2 ^ 970`. -/
def float_threshold : encoding_t → Nat
| F32 => 2 ^ 128 - 2 ^ 103
| F64 => 2 ^ 1024 - 2 ^ 970
| _ => 0

/-- Decides `m * 10 ^ e10 ≥ T` over exact integers. -/
def lit_overflows (m : Nat) (e10 : Int) (T : Nat) : Bool :=
  if 0 ≤ e10 then decide (m * 10 ^ e10.toNat ≥ T) else decide (m ≥ T * 10 ^ (-e10).toNat)

/-- Decides `m * 2 ^ e2 ≥ T` over exact integers, the overflow test for
the hexadecimal float form. -/
def lit2_overflows (m : Nat) (e2 : Int) (T : Nat) : Bool :=
  if 0 ≤ e2 then decide (m * 2 ^ e2.toNat ≥ T) else decide (m ≥ T * 2 ^ (-e2).toNat)

/-- Models the C library function `strtof(cursor, &cursor)` per C99: parse
the subject sequence; on overflow return `HUGE_VALF` with the sign of the
literal and store `ERANGE` (the returned Bool); otherwise the rounded bits
come from the oracle and `ERANGE` is stored exactly when the library's
implementation-defined underflow decision (an oracle field, true of tiny
literals such as `1e-400` under the real libraries) fires.  Returns
(bits, new cursor, erange). -/
def strtof_model (fm : float_model) (s : List Char) (pos : Nat) : Nat × Nat × Bool :=
  match parse_float_lit s pos with
  | none => (0, pos, false)
  | some (.inf, neg, p) => (f32_inf_bits neg, p, false)
  | some (.nan, neg, p) => (f32_nan_bits neg, p, false)
  | some (.finite m e10, neg, p) =>
    if lit_overflows m e10 (float_threshold F32) then (f32_inf_bits neg, p, true)
    else (fm.f32_of_dec neg m e10 % 2 ^ 32, p, fm.f32_uflow_dec m e10)
  | some (.hexfinite m e2, neg, p) =>
    if lit2_overflows m e2 (float_threshold F32) then (f32_inf_bits neg, p, true)
    else (fm.f32_of_hex neg m e2 % 2 ^ 32, p, fm.f32_uflow_hex m e2)

/-- Models the C library function `strtod(cursor, &cursor)` per C99, as
`strtof_model` at double width. -/
def strtod_model (fm : float_model) (s : List Char) (pos : Nat) : Nat × Nat × Bool :=
  match parse_float_lit s pos with
  | none => (0, pos, false)
  | some (.inf, neg, p) => (f64_inf_bits neg, p, false)
  | some (.nan, neg, p) => (f64_nan_bits neg, p, false)
  | some (.finite m e10, neg, p) =>
    if lit_overflows m e10 (float_threshold F64) then (f64_inf_bits neg, p, true)
    else (fm.f64_of_dec neg m e10 % 2 ^ 64, p, fm.f64_uflow_dec m e10)
  | some (.hexfinite m e2, neg, p) =>
    if lit2_overflows m e2 (float_threshold F64) then (f64_inf_bits neg, p, true)
    else (fm.f64_of_hex neg m e2 % 2 ^ 64, p, fm.f64_uflow_hex m e2)

/-- Reduction of an exact integer to the `w`-bit pattern it stores: the C
conversion to an unsigned type, and the (wraparound) conversion to a signed
type of the reference compilers. -/
def wrap (w : Nat) (v : Int) : Nat := (v % ((2 : Int) ^ w)).toNat

/-- Value read back from a `w`-bit pattern under the given signedness
(two's complement for signed types). -/
def interp_ws (w : Nat) (sgn : Bool) (b : Nat) : Int :=
  if sgn ∧ 2 ^ (w - 1) ≤ b then (b : Int) - 2 ^ w else (b : Int)

/-- Value read back from an encoded payload. -/
def interp (e : encoding_t) (b : Nat) : Int := interp_ws (width e) (is_signed e) b

/-- Literal parse of the source (`parse_value`): skip white space, then the
hex scan when the cursor shows `x` (at the `max_digits` budget of the
encoding's width, the result stored through the unsigned union member of
that width), else the per-mode decimal parse; a stored `ERANGE` rolls the
cursor back to the literal start and raises `range_error` there; an
unmoved cursor yields the absent value. -/
def parse_value (fm : float_model) (s : List Char) (pos : Nat) (mode : encoding_t) :
    Except calc_error (encoded_value × Nat) :=
  let p := skip_whitespace s pos
  let r : Nat × Nat × Bool :=
    if peek s p = 'x' then
      match mode with
      | S8 | U8 => let (v, q, er) := strtox s p 2; (v % 2 ^ 8, q, er)
      | S16 | U16 => let (v, q, er) := strtox s p 4; (v % 2 ^ 16, q, er)
      | S32 | U32 | F32 => let (v, q, er) := strtox s p 8; (v % 2 ^ 32, q, er)
      | S64 | U64 | F64 => let (v, q, er) := strtox s p 16; (v % 2 ^ 64, q, er)
    else
      match mode with
      | S8 => let (v, q, er) := parse_int s p (emin S8) (emax S8); (wrap 8 v, q, er)
      | S16 => let (v, q, er) := parse_int s p (emin S16) (emax S16); (wrap 16 v, q, er)
      | S32 => let (v, q, er) := parse_int s p (emin S32) (emax S32); (wrap 32 v, q, er)
      | S64 => let (v, q, er) := parse_int s p (emin S64) (emax S64); (wrap 64 v, q, er)
      | U8 => let (v, q, er) := parse_uint s p (2 ^ 8 - 1); (v % 2 ^ 8, q, er)
      | U16 => let (v, q, er) := parse_uint s p (2 ^ 16 - 1); (v % 2 ^ 16, q, er)
      | U32 => let (v, q, er) := parse_uint s p (2 ^ 32 - 1); (v % 2 ^ 32, q, er)
      | U64 => let (v, q, er) := parse_uint s p (2 ^ 64 - 1); (v % 2 ^ 64, q, er)
      | F32 => strtof_model fm s p
      | F64 => strtod_model fm s p
  if r.2.2 then .error (.range_error p)
  else if r.2.1 = p then .ok (INVALID_VALUE, p)
  else .ok (⟨some mode, r.1⟩, r.2.1)

/-- Models `strncmp(cursor, identifier, n) == 0` with C string semantics:
compare at most `n` characters, stopping early at a shared NUL; characters
of the identifier past its end read as NUL, exactly like characters of the
input past its end. -/
def strncmp_eq (s : List Char) : Nat → List Char → Nat → Bool
| _, _, 0 => true
| pos, id, n + 1 =>
  let c1 := peek s pos
  let c2 := match id with | [] => '\x00' | c :: _ => c
  if c1 ≠ c2 then false
  else if c1 = '\x00' then true
  else strncmp_eq s (pos + 1) (match id with | [] => [] | _ :: cs => cs) n

/-- Length of the comparison window for an operator identifier:
`max(1, strlen(identifier))` of the source, so the empty `END_EXPRESSION`
identifier still compares one character (the NUL terminator). -/
def ident_size (op : operator_t) : Nat :=
  max 1 (operator_table op).identifier.length

/-- Scan of the operator table in enum order (`parse_operator`'s loop): an
entry is considered when its arity matches the requested class or it is the
expected sentinel; the first considered entry whose identifier compares
equal at the cursor is returned with the cursor advanced past it; no match
at all raises `parse_error` at the (white-space-skipped) cursor. -/
def op_scan (s : List Char) (pos : Nat) (ar : arity_t) (sentinel : Option operator_t) :
    List operator_t → Except calc_error (operator_t × Nat)
| [] => .error (.parse_error pos)
| op :: rest =>
  if (operator_table op).arity ≠ ar ∧ some op ≠ sentinel then op_scan s pos ar sentinel rest
  else if strncmp_eq s pos (operator_table op).identifier (ident_size op) then
    .ok (op, pos + ident_size op)
  else op_scan s pos ar sentinel rest

/-- Operator token parse of the source (`parse_operator`): skip white
space, then scan the table.  The C default argument `INVALID_OP` for the
sentinel is the `none` case. -/
def parse_operator (s : List Char) (pos : Nat) (ar : arity_t) (sentinel : Option operator_t) :
    Except calc_error (operator_t × Nat) :=
  op_scan s (skip_whitespace s pos) ar sentinel op_list

/-- Outcome of a binary integer operator application: a result bit pattern,
an operator the template rejects (`success = false` in the source), or an
execution C leaves undefined. -/
inductive int_result
| val (bits : Nat)
| no_op
| ub
deriving DecidableEq

/-- Truncating (toward zero) division of C. -/
def c_div (a b : Int) : Int := a.sign * b.sign * ((a.natAbs / b.natAbs : Nat) : Int)

/-- Remainder of C's truncating division (sign of the dividend). -/
def c_rem (a b : Int) : Int := a.sign * ((a.natAbs % b.natAbs : Nat) : Int)

/-- Unary integer application (`evaluate_operator_integer`, unary overload)
on a `w`-bit pattern: `~` is bitwise complement, `-` is width-modular
negation; other operators fail (`success = false`). -/
def evaluate_operator_integer1 (w : Nat) (sgn : Bool) (op : operator_t) (b : Nat) : Option Nat :=
  match op with
  | NOT => some (2 ^ w - 1 - b)
  | NEGATE => some (wrap w (-(interp_ws w sgn b)))
  | _ => none

/-- Unary float application (`evaluate_operator_real`, unary overload):
only negation, an exact IEEE sign-bit flip; other operators fail. -/
def evaluate_operator_real1 (w : Nat) (op : operator_t) (b : Nat) : Option Nat :=
  match op with
  | NEGATE => some (Nat.xor b (2 ^ (w - 1)))
  | _ => none

/-- Binary integer application (`evaluate_operator_integer`, binary
overload) on `w`-bit patterns of signedness `sgn`, following C arithmetic
on the operands' (promoted) values with the reference compilers' wraparound
conversion back to width `w`.  `pw` is the width after integer promotion
(8- and 16-bit operands widen to 32-bit `int`).  Division or remainder by
zero and the 32/64-bit `INT_MIN / -1` case trap on the reference hardware,
and a shift amount that is negative or at least `pw` is unspecified: these
are `ub`.  Signed right shift is the arithmetic shift of the reference
compilers (floor division by the power of two). -/
def evaluate_operator_integer2 (w : Nat) (sgn : Bool) (op : operator_t) (a b : Nat) : int_result :=
  let ia := interp_ws w sgn a
  let ib := interp_ws w sgn b
  let pw := if w ≤ 16 then 32 else w
  match op with
  | ADD => .val (wrap w (ia + ib))
  | SUBTRACT => .val (wrap w (ia - ib))
  | MULTIPLY => .val (wrap w (ia * ib))
  | DIVIDE =>
    if ib = 0 then .ub
    else if sgn ∧ 32 ≤ w ∧ ia = -(2 ^ (w - 1)) ∧ ib = -1 then .ub
    else .val (wrap w (c_div ia ib))
  | MODULUS =>
    if ib = 0 then .ub
    else if sgn ∧ 32 ≤ w ∧ ia = -(2 ^ (w - 1)) ∧ ib = -1 then .ub
    else .val (wrap w (c_rem ia ib))
  | LEFT_SHIFT =>
    if ib < 0 ∨ (pw : Int) ≤ ib then .ub
    else .val (wrap w (ia * 2 ^ ib.toNat))
  | RIGHT_SHIFT =>
    if ib < 0 ∨ (pw : Int) ≤ ib then .ub
    else .val (wrap w (Int.ediv ia (2 ^ ib.toNat)))
  | AND => .val (Nat.land a b)
  | OR => .val (Nat.lor a b)
  | XOR => .val (Nat.xor a b)
  | _ => .no_op

/-- Binary float application (`evaluate_operator_real`, binary overload):
`+ - * /` through the IEEE oracle (reduced to the member width as the
union assignment does); every other operator fails (`success = false`). -/
def evaluate_operator_real2 (fm : float_model) (e : encoding_t) (op : operator_t) (a b : Nat) :
    Option Nat :=
  match op with
  | ADD | SUBTRACT | MULTIPLY | DIVIDE =>
    some ((match e with | F32 => fm.f32_bin op a b | _ => fm.f64_bin op a b) % 2 ^ width e)
  | _ => none

/-- Fixed-width lowercase hex digits of `bits`, most significant first. -/
def hex_digits (bits : Nat) : Nat → List Char
| 0 => []
| k + 1 => hex_digits (bits / 16) k ++ [Nat.digitChar (bits % 16)]

/-- Hex rendering of the source (`format_hex`): `x` followed by the
zero-padded lowercase hex form of the value's bits at the width of its
encoding (an absent encoding prints a diagnostic in the source and leaves
the buffer stale; rendered here as the empty string, unreachable on valid
values).  Each call returns an independent string; the source's rotating
static buffer exists only to approximate this and carries no numeric
state. -/
def format_hex (v : encoded_value) : String :=
  match v.encoding with
  | none => ""
  | some e => String.mk ('x' :: hex_digits (v.bits % 2 ^ width e) (width e / 4))

/-- Decimal rendering of the source (`format_dec`): natural signed,
unsigned or float text of the value read from the union member of its
encoding. -/
def format_dec (fm : float_model) (v : encoded_value) : String :=
  match v.encoding with
  | none => ""
  | some e =>
    if is_float e then (match e with | F32 => fm.f32_str v.bits | _ => fm.f64_str v.bits)
    else toString (interp e (v.bits % 2 ^ width e))

/-- Identifier text of an operator as a string. -/
def op_ident_str (op : operator_t) : String := String.mk (operator_table op).identifier

/-- Trace line of a successful unary application in verbose mode, the
`"%s(%s) = %s (%s%s = %s)"` line of the source. -/
def trace1 (fm : float_model) (op : operator_t) (value result : encoded_value) : String :=
  op_ident_str op ++ "(" ++ format_dec fm value ++ ") = " ++ format_dec fm result ++
  " (" ++ op_ident_str op ++ format_hex value ++ " = " ++ format_hex result ++ ")"

/-- Trace line of a successful binary application in verbose mode, the
`"%s %s %s = %s (%s %s %s = %s)"` line of the source. -/
def trace2 (fm : float_model) (op : operator_t) (left right result : encoded_value) : String :=
  format_dec fm left ++ " " ++ op_ident_str op ++ " " ++ format_dec fm right ++ " = " ++
  format_dec fm result ++ " (" ++ format_hex left ++ " " ++ op_ident_str op ++ " " ++
  format_hex right ++ " = " ++ format_hex result ++ ")"

/-- Unary operator application (`evaluate_operator`, unary overload):
dispatch on the value's encoding to the integer or float template; success
returns the result, prepending a trace line exactly when verbose; failure
raises `parse_error` at the current cursor position `pos` (the position the
exception leaves in the caller's cursor). -/
def evaluate_operator1 (fm : float_model) (vb : Bool) (pos : Nat) (op : operator_t)
    (value : encoded_value) : Except calc_error (encoded_value × List String) :=
  match value.encoding with
  | none => .error (.parse_error pos)
  | some e =>
    let core : Option Nat :=
      if is_float e then evaluate_operator_real1 (width e) op value.bits
      else evaluate_operator_integer1 (width e) (is_signed e) op value.bits
    match core with
    | some rbits =>
      let result : encoded_value := ⟨some e, rbits⟩
      .ok (result, if vb then [trace1 fm op value result] else [])
    | none => .error (.parse_error pos)

/-- Binary operator application (`evaluate_operator`, binary overload):
mismatched encodings yield the absent value (the source prints "Mixed
types not supported" and does not throw); an absent common encoding or a
rejected operator raises `parse_error`; an execution C leaves undefined is
the `undefined` outcome; success returns the result, prepending a trace
line exactly when verbose. -/
def evaluate_operator2 (fm : float_model) (vb : Bool) (pos : Nat) (op : operator_t)
    (left right : encoded_value) : Except calc_error (encoded_value × List String) :=
  if left.encoding ≠ right.encoding then .ok (INVALID_VALUE, [])
  else match left.encoding with
  | none => .error (.parse_error pos)
  | some e =>
    if is_float e then
      match evaluate_operator_real2 fm e op left.bits right.bits with
      | some rbits =>
        let result : encoded_value := ⟨some e, rbits⟩
        .ok (result, if vb then [trace2 fm op left right result] else [])
      | none => .error (.parse_error pos)
    else
      match evaluate_operator_integer2 (width e) (is_signed e) op left.bits right.bits with
      | .val rbits =>
        let result : encoded_value := ⟨some e, rbits⟩
        .ok (result, if vb then [trace2 fm op left right result] else [])
      | .no_op => .error (.parse_error pos)
      | .ub => .error .undefined

mutual

/-- Value parse of the source (`compute_value`): a literal if present;
otherwise a unary operator, which is either `(` opening a sub-expression
terminated by `)` (whose terminating operator is discarded, `op_out` being
null) or a prefix operator applied to a recursively parsed value.  The
first argument is the recursion fuel (C uses the call stack). -/
def compute_value (fm : float_model) (vb : Bool) (s : List Char) (mode : encoding_t) :
    Nat → Nat → Except calc_error (encoded_value × Nat × List String)
| 0, _ => .error .no_fuel
| fuel + 1, pos =>
  match parse_value fm s pos mode with
  | .error e => .error e
  | .ok (value, pos1) =>
    if value.encoding ≠ none then .ok (value, pos1, [])
    else
      match parse_operator s pos1 UNARY none with
      | .error e => .error e
      | .ok (uop, pos2) =>
        if uop = OPEN_PAREN then
          match compute_expression fm vb s mode fuel pos2 CLOSE_PAREN 0 with
          | .error e => .error e
          | .ok (v, _, pos3, tr) => .ok (v, pos3, tr)
        else if (operator_table uop).arity = UNARY then
          match compute_value fm vb s mode fuel pos2 with
          | .error e => .error e
          | .ok (v, pos3, tr) =>
            match evaluate_operator1 fm vb pos3 uop v with
            | .error e => .error e
            | .ok (v2, tr2) => .ok (v2, pos3, tr ++ tr2)
        else .error (.parse_error pos2)
termination_by structural fuel => fuel

/-- Precedence-climbing expression parse of the source
(`compute_expression`): parse one value and the following binary-or-
sentinel operator, then run the continuation loop.  Returns the value, the
terminating operator (`op_out`), the cursor, and the trace lines emitted
during evaluation, in print order. -/
def compute_expression (fm : float_model) (vb : Bool) (s : List Char) (mode : encoding_t) :
    Nat → Nat → operator_t → Nat →
    Except calc_error (encoded_value × operator_t × Nat × List String)
| 0, _, _, _ => .error .no_fuel
| fuel + 1, pos, sentinel, minp =>
  match compute_value fm vb s mode fuel pos with
  | .error e => .error e
  | .ok (value, pos1, tr) =>
    match parse_operator s pos1 BINARY (some sentinel) with
    | .error e => .error e
    | .ok (op, pos2) =>
      match compute_expr_loop fm vb s mode fuel value op pos2 sentinel minp with
      | .error e => .error e
      | .ok (v, op2, pos3, tr2) => .ok (v, op2, pos3, tr ++ tr2)
termination_by structural fuel => fuel

/-- While loop of `compute_expression`: as long as the pending operator
binds tighter than `minp`, parse the right side with the minimum raised to
that operator's precedence, apply the operator, and continue with the
operator the recursive parse stopped at. -/
def compute_expr_loop (fm : float_model) (vb : Bool) (s : List Char) (mode : encoding_t) :
    Nat → encoded_value → operator_t → Nat → operator_t → Nat →
    Except calc_error (encoded_value × operator_t × Nat × List String)
| 0, _, _, _, _, _ => .error .no_fuel
| fuel + 1, value, op, pos, sentinel, minp =>
  if (operator_table op).precedence ≤ minp then .ok (value, op, pos, [])
  else
    match compute_expression fm vb s mode fuel pos sentinel (operator_table op).precedence with
    | .error e => .error e
    | .ok (next_value, next_op, pos1, tr1) =>
      match evaluate_operator2 fm vb pos1 op value next_value with
      | .error e => .error e
      | .ok (value2, tr2) =>
        match compute_expr_loop fm vb s mode fuel value2 next_op pos1 sentinel minp with
        | .error e => .error e
        | .ok (v, op2, pos2, tr3) => .ok (v, op2, pos2, tr1 ++ tr2 ++ tr3)
termination_by structural fuel => fuel

end

/-- Top-level evaluation of one input line (`handle_input`): parse with
the end-of-input sentinel and render the result as `"dec (hex)"`.  A fault
propagates with the cursor position the source's caret rendering uses.
The trace lines are the verbose-mode output, in order. -/
def handle_input (fm : float_model) (vb : Bool) (fuel : Nat) (s : List Char)
    (mode : encoding_t) : Except calc_error (String × List String) :=
  match compute_expression fm vb s mode fuel 0 END_EXPRESSION 0 with
  | .error e => .error e
  | .ok (result, _, _, tr) =>
    .ok (format_dec fm result ++ " (" ++ format_hex result ++ ")", tr)

/-- Ample recursion fuel for an input line: every recursion level past two
consumes at least one input character, so this budget is never exhausted. -/
def ample_fuel (s : List Char) : Nat := 2 * s.length + 4

/-- Evaluation of one input line given as a string, at ample fuel. -/
def evaluate_line (fm : float_model) (vb : Bool) (line : String) (mode : encoding_t) :
    Except calc_error (String × List String) :=
  handle_input fm vb (ample_fuel line.data) line.data mode

/-- Final value of an expression parse, the trace and cursor dropped. -/
def expr_value : Except calc_error (encoded_value × operator_t × Nat × List String) →
    Except calc_error encoded_value :=
  Except.map fun r => r.1

/-- Arbitrary instantiation of the IEEE oracle, used only to state closed
concrete facts; every fact proved at it is also proved for all models. -/
def fm0 : float_model :=
  ⟨fun _ _ _ => 0, fun _ _ _ => 0, fun _ _ _ => 0, fun _ _ _ => 0, fun _ => "", fun _ => "",
   fun _ _ _ => 0, fun _ _ _ => 0, fun _ _ => false, fun _ _ => false,
   fun _ _ => false, fun _ _ => false⟩

/-- Decidable statement that the characters at `pos` are exactly the digit
run `ds` followed by a non-digit (possibly the end of input). -/
def digits_at (s : List Char) : Nat → List Char → Bool
| pos, [] => !c_isdigit (peek s pos)
| pos, d :: ds => (peek s pos = d) && c_isdigit d && digits_at s (pos + 1) ds

/-- Exact value of a decimal digit run. -/
def dec_val (ds : List Char) : Nat := ds.foldl (fun a c => a * 10 + digit_to_int c) 0

/-- Decidable statement that the characters at `pos` are exactly the hex
digit run `ds` followed by a non-hex-digit. -/
def hex_at (s : List Char) : Nat → List Char → Bool
| pos, [] => !c_isxdigit (peek s pos)
| pos, d :: ds => (peek s pos = d) && c_isxdigit d && hex_at s (pos + 1) ds

/-- Exact value of a hex digit run. -/
def hex_val (ds : List Char) : Nat := ds.foldl (fun a c => a * 16 + digit_to_int c) 0

/-- Result of a unary application with its trace dropped. -/
def drop_tr2 : Except calc_error (encoded_value × List String) → Except calc_error encoded_value :=
  Except.map Prod.fst

/-- Result of a value parse with its trace dropped. -/
def drop_tr3 : Except calc_error (encoded_value × Nat × List String) →
    Except calc_error (encoded_value × Nat) :=
  Except.map fun r => (r.1, r.2.1)

/-- Result of an expression parse with its trace dropped. -/
def drop_tr4 : Except calc_error (encoded_value × operator_t × Nat × List String) →
    Except calc_error (encoded_value × operator_t × Nat) :=
  Except.map fun r => (r.1, r.2.1, r.2.2.1)

set_option maxRecDepth 8000

theorem map_error_iff {α β : Type} (f : α → β) (x : Except calc_error α) (e : calc_error) :
    Except.map f x = .error e ↔ x = .error e := by
  cases x <;> simp [Except.map]

theorem map_ok_iff {α β : Type} (f : α → β) (x : Except calc_error α) (b : β) :
    Except.map f x = .ok b ↔ ∃ a, x = .ok a ∧ f a = b := by
  cases x <;> simp [Except.map]

theorem drop2_cases {A B : Except calc_error (encoded_value × List String)}
    (h : drop_tr2 A = drop_tr2 B) :
    (∃ e, A = .error e ∧ B = .error e) ∨
    (∃ v trA trB, A = .ok (v, trA) ∧ B = .ok (v, trB)) := by
  cases A with
  | error a => cases B with
    | error b => simp [drop_tr2, Except.map] at h; exact Or.inl ⟨a, rfl, by rw [h]⟩
    | ok b => simp [drop_tr2, Except.map] at h
  | ok a => cases B with
    | error b => simp [drop_tr2, Except.map] at h
    | ok b =>
      rcases a with ⟨v, tr⟩
      rcases b with ⟨v', tr'⟩
      simp [drop_tr2, Except.map] at h
      exact Or.inr ⟨v, tr, tr', rfl, by rw [h]⟩

theorem drop3_cases {A B : Except calc_error (encoded_value × Nat × List String)}
    (h : drop_tr3 A = drop_tr3 B) :
    (∃ e, A = .error e ∧ B = .error e) ∨
    (∃ v p trA trB, A = .ok (v, p, trA) ∧ B = .ok (v, p, trB)) := by
  cases A with
  | error a => cases B with
    | error b => simp [drop_tr3, Except.map] at h; exact Or.inl ⟨a, rfl, by rw [h]⟩
    | ok b => simp [drop_tr3, Except.map] at h
  | ok a => cases B with
    | error b => simp [drop_tr3, Except.map] at h
    | ok b =>
      rcases a with ⟨v, p, tr⟩
      rcases b with ⟨v', p', tr'⟩
      simp [drop_tr3, Except.map] at h
      obtain ⟨h1, h2⟩ := h
      subst h1; subst h2
      exact Or.inr ⟨v, p, tr, tr', rfl, rfl⟩

theorem drop4_cases {A B : Except calc_error (encoded_value × operator_t × Nat × List String)}
    (h : drop_tr4 A = drop_tr4 B) :
    (∃ e, A = .error e ∧ B = .error e) ∨
    (∃ v op p trA trB, A = .ok (v, op, p, trA) ∧ B = .ok (v, op, p, trB)) := by
  cases A with
  | error a => cases B with
    | error b => simp [drop_tr4, Except.map] at h; exact Or.inl ⟨a, rfl, by rw [h]⟩
    | ok b => simp [drop_tr4, Except.map] at h
  | ok a => cases B with
    | error b => simp [drop_tr4, Except.map] at h
    | ok b =>
      rcases a with ⟨v, op, p, tr⟩
      rcases b with ⟨v', op', p', tr'⟩
      simp [drop_tr4, Except.map] at h
      obtain ⟨h1, h2, h3⟩ := h
      subst h1; subst h2; subst h3
      exact Or.inr ⟨v, op, p, tr, tr', rfl, rfl⟩

theorem parse_value_irrel (fm fm' : float_model) (s : List Char) (pos : Nat) (mode : encoding_t)
    (h : is_float mode = false ∨ fm' = fm) :
    parse_value fm' s pos mode = parse_value fm s pos mode := by
  rcases h with h | rfl
  · cases mode
    case F32 => simp [is_float] at h
    case F64 => simp [is_float] at h
    all_goals rfl
  · rfl

theorem eval1_irrel (fm fm' : float_model) (vb vb' : Bool) (pos : Nat) (op : operator_t)
    (v : encoded_value) :
    drop_tr2 (evaluate_operator1 fm' vb' pos op v) = drop_tr2 (evaluate_operator1 fm vb pos op v) := by
  rcases v with ⟨enc, bits⟩
  cases enc with
  | none => rfl
  | some e =>
    simp only [evaluate_operator1]
    cases hcore : (if is_float e then evaluate_operator_real1 (width e) op bits
        else evaluate_operator_integer1 (width e) (is_signed e) op bits) <;>
      simp [drop_tr2, Except.map]

theorem eval2_irrel (fm fm' : float_model) (vb vb' : Bool) (pos : Nat) (op : operator_t)
    (l r : encoded_value)
    (h : (∀ e, l.encoding = some e → is_float e = false) ∨ fm' = fm) :
    drop_tr2 (evaluate_operator2 fm' vb' pos op l r) =
    drop_tr2 (evaluate_operator2 fm vb pos op l r) := by
  rcases l with ⟨lenc, lb⟩
  rcases r with ⟨renc, rb⟩
  by_cases hne : ({ encoding := lenc, bits := lb } : encoded_value).encoding ≠
      ({ encoding := renc, bits := rb } : encoded_value).encoding
  · simp [evaluate_operator2, if_pos hne]
  · simp only [evaluate_operator2, if_neg hne]
    cases lenc with
    | none => rfl
    | some e =>
      by_cases hf : is_float e
      · have hfm : fm' = fm := by
          rcases h with h | h
          · exact absurd (h e rfl) (by simp [hf])
          · exact h
        subst hfm
        simp only [hf, if_true]
        cases hre : evaluate_operator_real2 fm' e op lb rb <;>
          simp [hre, drop_tr2, Except.map]
      · simp only [hf, if_false]
        cases hie : evaluate_operator_integer2 (width e) (is_signed e) op lb rb <;>
          simp [hie, drop_tr2, Except.map]

theorem eval1_enc (fm : float_model) (vb : Bool) (pos : Nat) (op : operator_t)
    (v res : encoded_value) (tr : List String)
    (h : evaluate_operator1 fm vb pos op v = .ok (res, tr)) : res.encoding = v.encoding := by
  rcases v with ⟨enc, bits⟩
  cases enc with
  | none => simp [evaluate_operator1] at h
  | some e =>
    simp only [evaluate_operator1] at h
    cases hcore : (if is_float e then evaluate_operator_real1 (width e) op bits
        else evaluate_operator_integer1 (width e) (is_signed e) op bits) with
    | none => rw [hcore] at h; simp at h
    | some rb => rw [hcore] at h; simp at h; rw [← h.1]

theorem eval2_enc (fm : float_model) (vb : Bool) (pos : Nat) (op : operator_t)
    (l r res : encoded_value) (tr : List String)
    (h : evaluate_operator2 fm vb pos op l r = .ok (res, tr)) :
    res.encoding = none ∨ res.encoding = l.encoding := by
  rcases l with ⟨lenc, lb⟩
  rcases r with ⟨renc, rb⟩
  by_cases hne : ({ encoding := lenc, bits := lb } : encoded_value).encoding ≠
      ({ encoding := renc, bits := rb } : encoded_value).encoding
  · simp [evaluate_operator2, if_pos hne] at h
    rw [← h.1]
    exact Or.inl rfl
  · simp only [evaluate_operator2, if_neg hne] at h
    cases lenc with
    | none => simp at h
    | some e =>
      by_cases hf : is_float e
      · simp only [hf, if_true] at h
        cases hre : evaluate_operator_real2 fm e op lb rb with
        | none => rw [hre] at h; simp at h
        | some rb2 => rw [hre] at h; simp at h; rw [← h.1]; exact Or.inr rfl
      · simp only [hf, if_false] at h
        cases hie : evaluate_operator_integer2 (width e) (is_signed e) op lb rb with
        | val rb2 => rw [hie] at h; simp at h; rw [← h.1]; exact Or.inr rfl
        | no_op => rw [hie] at h; simp at h
        | ub => rw [hie] at h; simp at h

theorem format_dec_irrel (fm fm' : float_model) (v : encoded_value)
    (h : ∀ e, v.encoding = some e → is_float e = false) :
    format_dec fm' v = format_dec fm v := by
  rcases v with ⟨enc, b⟩
  cases enc with
  | none => rfl
  | some e =>
    have he := h e rfl
    simp [format_dec, he]

theorem parse_value_enc (fm : float_model) (s : List Char) (pos : Nat) (mode : encoding_t)
    (value : encoded_value) (p : Nat) (h : parse_value fm s pos mode = .ok (value, p)) :
    value.encoding = none ∨ value.encoding = some mode := by
  simp only [parse_value] at h
  split at h
  · split at h
    · simp at h
    · split at h
      · simp only [Except.ok.injEq, Prod.mk.injEq] at h
        rw [← h.1]
        exact Or.inl rfl
      · simp only [Except.ok.injEq, Prod.mk.injEq] at h
        rw [← h.1]
        exact Or.inr rfl
  · split at h
    · simp at h
    · split at h
      · simp only [Except.ok.injEq, Prod.mk.injEq] at h
        rw [← h.1]
        exact Or.inl rfl
      · simp only [Except.ok.injEq, Prod.mk.injEq] at h
        rw [← h.1]
        exact Or.inr rfl

theorem compute_enc (fm : float_model) (vb : Bool) (s : List Char) (mode : encoding_t) :
    ∀ fuel : Nat,
    (∀ pos v p tr, compute_value fm vb s mode fuel pos = .ok (v, p, tr) →
       v.encoding = none ∨ v.encoding = some mode) ∧
    (∀ pos sent minp v op p tr,
       compute_expression fm vb s mode fuel pos sent minp = .ok (v, op, p, tr) →
       v.encoding = none ∨ v.encoding = some mode) ∧
    (∀ value op pos sent minp v op2 p tr,
       value.encoding = none ∨ value.encoding = some mode →
       compute_expr_loop fm vb s mode fuel value op pos sent minp = .ok (v, op2, p, tr) →
       v.encoding = none ∨ v.encoding = some mode) := by
  intro fuel
  induction fuel with
  | zero =>
    refine ⟨?_, ?_, ?_⟩ <;> intros <;>
      simp_all [compute_value, compute_expression, compute_expr_loop]
  | succ fuel IH =>
    obtain ⟨IHv, IHe, IHl⟩ := IH
    refine ⟨?_, ?_, ?_⟩
    · intro pos v p tr h
      simp only [compute_value] at h
      split at h
      · simp at h
      · rename_i vp value pos1 hpv
        split at h
        · simp only [Except.ok.injEq, Prod.mk.injEq] at h
          rw [← h.1]
          exact parse_value_enc fm s pos mode value pos1 hpv
        · split at h
          · simp at h
          · rename_i opp uop pos2 hpo
            split at h
            · split at h
              · simp at h
              · rename_i r4 v' o' p' tr' hce
                simp only [Except.ok.injEq, Prod.mk.injEq] at h
                rw [← h.1]
                exact IHe pos2 CLOSE_PAREN 0 v' o' p' tr' hce
            · split at h
              · split at h
                · simp at h
                · rename_i r3 v' p' tr' hcv
                  split at h
                  · simp at h
                  · rename_i r2 v2 tr2 he1
                    simp only [Except.ok.injEq, Prod.mk.injEq] at h
                    rw [← h.1]
                    rw [eval1_enc fm vb p' _ v' v2 tr2 he1]
                    exact IHv pos2 v' p' tr' hcv
              · simp at h
    · intro pos sent minp v op p tr h
      simp only [compute_expression] at h
      split at h
      · simp at h
      · rename_i r3 value pos1 tr1 hcv
        split at h
        · simp at h
        · rename_i opp op1 pos2 hpo
          split at h
          · simp at h
          · rename_i r4 v' op' p' tr' hlp
            simp only [Except.ok.injEq, Prod.mk.injEq] at h
            rw [← h.1]
            exact IHl value op1 pos2 sent minp v' op' p' tr'
              (IHv pos value pos1 tr1 hcv) hlp
    · intro value op pos sent minp v op2 p tr hval h
      simp only [compute_expr_loop] at h
      split at h
      · simp only [Except.ok.injEq, Prod.mk.injEq] at h
        rw [← h.1]
        exact hval
      · split at h
        · simp at h
        · rename_i r4 nv nop pos1 tr1 hce
          split at h
          · simp at h
          · rename_i r2 v2 tr2 he2
            split at h
            · simp at h
            · rename_i r4b v' op' p' tr' hlp
              simp only [Except.ok.injEq, Prod.mk.injEq] at h
              rw [← h.1]
              have hv2 : v2.encoding = none ∨ v2.encoding = some mode := by
                rcases eval2_enc fm vb pos1 op value nv v2 tr2 he2 with h0 | h0
                · exact Or.inl h0
                · rw [h0]; exact hval
              exact IHl v2 nop pos1 sent minp v' op' p' tr' hv2 hlp

theorem compute_irrel (fm fm' : float_model) (vb vb' : Bool) (s : List Char) (mode : encoding_t)
    (hm : is_float mode = false ∨ fm' = fm) :
    ∀ fuel : Nat,
    (∀ pos, drop_tr3 (compute_value fm' vb' s mode fuel pos) =
       drop_tr3 (compute_value fm vb s mode fuel pos)) ∧
    (∀ pos sent minp, drop_tr4 (compute_expression fm' vb' s mode fuel pos sent minp) =
       drop_tr4 (compute_expression fm vb s mode fuel pos sent minp)) ∧
    (∀ value op pos sent minp, value.encoding = none ∨ value.encoding = some mode →
       drop_tr4 (compute_expr_loop fm' vb' s mode fuel value op pos sent minp) =
       drop_tr4 (compute_expr_loop fm vb s mode fuel value op pos sent minp)) := by
  intro fuel
  induction fuel with
  | zero =>
    refine ⟨?_, ?_, ?_⟩ <;> intros <;>
      simp [compute_value, compute_expression, compute_expr_loop]
  | succ fuel IH =>
    obtain ⟨IHv, IHe, IHl⟩ := IH
    refine ⟨?_, ?_, ?_⟩
    · intro pos
      simp only [compute_value]
      rw [parse_value_irrel fm fm' s pos mode hm]
      cases hpv : parse_value fm s pos mode with
      | error e => simp [drop_tr3]
      | ok vp =>
        rcases vp with ⟨value, pos1⟩
        by_cases hv : value.encoding ≠ none
        · simp only [if_pos hv]
        · simp only [if_neg hv]
          cases hpo : parse_operator s pos1 UNARY none with
          | error e => simp [drop_tr3]
          | ok opp =>
            rcases opp with ⟨uop, pos2⟩
            by_cases huop : uop = OPEN_PAREN
            · simp only [if_pos huop]
              rcases drop4_cases (IHe pos2 CLOSE_PAREN 0) with
                ⟨e, hA, hB⟩ | ⟨v', o', p', trA, trB, hA, hB⟩
              · simp [hA, hB, drop_tr3]
              · simp [hA, hB, drop_tr3, drop_tr4, Except.map]
            · simp only [if_neg huop]
              by_cases har : (operator_table uop).arity = UNARY
              · simp only [if_pos har]
                rcases drop3_cases (IHv pos2) with
                  ⟨e, hA, hB⟩ | ⟨v', p', trA, trB, hA, hB⟩
                · simp [hA, hB, drop_tr3]
                · simp only [hA, hB]
                  rcases drop2_cases (eval1_irrel fm fm' vb vb' p' uop v') with
                    ⟨e, hA2, hB2⟩ | ⟨v2, trA2, trB2, hA2, hB2⟩
                  · simp [hA2, hB2, drop_tr3]
                  · simp [hA2, hB2, drop_tr3, Except.map]
              · simp [if_neg har, drop_tr3]
    · intro pos sent minp
      simp only [compute_expression]
      rcases drop3_cases (IHv pos) with
        ⟨e, hA, hB⟩ | ⟨value, pos1, trA, trB, hA, hB⟩
      · simp [hA, hB, drop_tr4]
      · simp only [hA, hB]
        cases hpo : parse_operator s pos1 BINARY (some sent) with
        | error e => simp [drop_tr4]
        | ok opp =>
          rcases opp with ⟨op1, pos2⟩
          have hvalenc : value.encoding = none ∨ value.encoding = some mode :=
            (compute_enc fm' vb' s mode fuel).1 pos value pos1 trA hA
          rcases drop4_cases (IHl value op1 pos2 sent minp hvalenc) with
            ⟨e, hA2, hB2⟩ | ⟨v', op', p', trA2, trB2, hA2, hB2⟩
          · simp [hA2, hB2, drop_tr4]
          · simp [hA2, hB2, drop_tr4, Except.map]
    · intro value op pos sent minp hval
      simp only [compute_expr_loop]
      by_cases hprec : (operator_table op).precedence ≤ minp
      · simp only [if_pos hprec]
      · simp only [if_neg hprec]
        rcases drop4_cases (IHe pos sent (operator_table op).precedence) with
          ⟨e, hA, hB⟩ | ⟨nv, nop, pos1, trA, trB, hA, hB⟩
        · simp [hA, hB, drop_tr4]
        · simp only [hA, hB]
          have harg : (∀ e, value.encoding = some e → is_float e = false) ∨ fm' = fm := by
            rcases hm with hm | hm
            · left
              intro e2 he2
              rcases hval with h0 | h0
              · rw [he2] at h0; cases h0
              · rw [he2] at h0
                injection h0 with h0
                rw [h0]
                exact hm
            · right; exact hm
          rcases drop2_cases (eval2_irrel fm fm' vb vb' pos1 op value nv harg) with
            ⟨e, hA2, hB2⟩ | ⟨v2, trA2, trB2, hA2, hB2⟩
          · simp [hA2, hB2, drop_tr4]
          · simp only [hA2, hB2]
            have hv2enc : v2.encoding = none ∨ v2.encoding = some mode := by
              rcases eval2_enc fm vb pos1 op value nv v2 trB2 hB2 with h0 | h0
              · exact Or.inl h0
              · rw [h0]; exact hval
            rcases drop4_cases (IHl v2 nop pos1 sent minp hv2enc) with
              ⟨e, hA3, hB3⟩ | ⟨v', op', p', trA3, trB3, hA3, hB3⟩
            · simp [hA3, hB3, drop_tr4]
            · simp [hA3, hB3, drop_tr4, Except.map]

theorem expr_value_congr {A B : Except calc_error (encoded_value × operator_t × Nat × List String)}
    (h : drop_tr4 A = drop_tr4 B) : expr_value A = expr_value B := by
  rcases drop4_cases h with ⟨e, hA, hB⟩ | ⟨v, op, p, trA, trB, hA, hB⟩ <;>
    simp [hA, hB, expr_value, Except.map]

theorem handle_input_irrel (fm fm' : float_model) (vb vb' : Bool) (fuel : Nat)
    (s : List Char) (mode : encoding_t) (hm : is_float mode = false ∨ fm' = fm) :
    Except.map Prod.fst (handle_input fm' vb' fuel s mode) =
    Except.map Prod.fst (handle_input fm vb fuel s mode) := by
  simp only [handle_input]
  rcases drop4_cases ((compute_irrel fm fm' vb vb' s mode hm fuel).2.1 0 END_EXPRESSION 0) with
    ⟨e, hA, hB⟩ | ⟨result, op, p, trA, trB, hA, hB⟩
  · simp [hA, hB]
  · simp only [hA, hB]
    have hfd : format_dec fm' result = format_dec fm result := by
      rcases hm with hm | hm
      · refine format_dec_irrel fm fm' result ?_
        intro e2 he2
        rcases (compute_enc fm' vb' s mode fuel).2.1 0 END_EXPRESSION 0 result op p trA hA with
          h0 | h0
        · rw [he2] at h0; cases h0
        · rw [he2] at h0
          injection h0 with h0
          rw [h0]
          exact hm
      · rw [hm]
    simp [Except.map, hfd]

/-- C9: verbose tracing is a pure observational side channel: for every
input line, every encoding, every IEEE oracle and every recursion budget,
evaluation with verbose enabled and evaluation with verbose disabled
produce the identical formatted final result and the identical fault; the
flag only adds trace lines. -/
theorem claim_C9 : ∀ (fm : float_model) (vb : Bool) (fuel : Nat) (s : List Char)
    (mode : encoding_t),
    Except.map Prod.fst (handle_input fm vb fuel s mode) =
    Except.map Prod.fst (handle_input fm false fuel s mode) :=
  fun fm vb fuel s mode => handle_input_irrel fm fm false vb fuel s mode (Or.inr rfl)

/-- C1: binary operators bind according to the operator table's precedences
and parentheses override them: under `u32`, for every IEEE oracle and both
verbose settings, `2 + 3 * 4` evaluates to `14` and `(2 + 3) * 4` to `20`. -/
theorem claim_C1 : ∀ (fm : float_model) (vb : Bool),
    expr_value (compute_expression fm vb ("2 + 3 * 4".data) U32
      (ample_fuel ("2 + 3 * 4".data)) 0 END_EXPRESSION 0) = .ok ⟨some U32, 14⟩ ∧
    expr_value (compute_expression fm vb ("(2 + 3) * 4".data) U32
      (ample_fuel ("(2 + 3) * 4".data)) 0 END_EXPRESSION 0) = .ok ⟨some U32, 20⟩ := by
  intro fm vb
  constructor
  · rw [expr_value_congr ((compute_irrel fm0 fm false vb ("2 + 3 * 4".data) U32
      (Or.inl rfl) (ample_fuel ("2 + 3 * 4".data))).2.1 0 END_EXPRESSION 0)]
    rfl
  · rw [expr_value_congr ((compute_irrel fm0 fm false vb ("(2 + 3) * 4".data) U32
      (Or.inl rfl) (ample_fuel ("(2 + 3) * 4".data))).2.1 0 END_EXPRESSION 0)]
    rfl

/-- C2: chains of equal-precedence binary operators evaluate left to
right, because the recursive right-side parse stops when the peeked
operator's precedence is not above the raised minimum: under `s32`, for
every IEEE oracle and both verbose settings, `10 - 3 - 2` evaluates to `5`
(that is `(10 - 3) - 2`, not `10 - (3 - 2) = 9`). -/
theorem claim_C2 : ∀ (fm : float_model) (vb : Bool),
    expr_value (compute_expression fm vb ("10 - 3 - 2".data) S32
      (ample_fuel ("10 - 3 - 2".data)) 0 END_EXPRESSION 0) = .ok ⟨some S32, 5⟩ := by
  intro fm vb
  rw [expr_value_congr ((compute_irrel fm0 fm false vb ("10 - 3 - 2".data) S32
    (Or.inl rfl) (ample_fuel ("10 - 3 - 2".data))).2.1 0 END_EXPRESSION 0)]
  rfl

theorem wrap_lt (w : Nat) (v : Int) : wrap w v < 2 ^ w := by
  unfold wrap
  have h0 : (0:Int) < 2 ^ w := by positivity
  have h1 : 0 ≤ v % (2:Int) ^ w := Int.emod_nonneg v (ne_of_gt h0)
  have h2 : v % (2:Int) ^ w < 2 ^ w := Int.emod_lt_of_pos v h0
  have hN : ((2 ^ w : Nat) : Int) = (2:Int) ^ w := by push_cast; ring
  omega

theorem interp_ws_wrap (w : Nat) (sgn : Bool) (v : Int) :
    Int.ModEq (2 ^ w) (interp_ws w sgn (wrap w v)) v := by
  have h0 : (0:Int) < 2 ^ w := by positivity
  have h1 : 0 ≤ v % (2:Int) ^ w := Int.emod_nonneg v (ne_of_gt h0)
  have hc : ((wrap w v : Nat) : Int) = v % (2:Int) ^ w := Int.toNat_of_nonneg h1
  unfold interp_ws
  split
  · show ((wrap w v : Nat) - (2:Int) ^ w) % _ = _
    rw [hc, Int.sub_emod, Int.emod_emod_of_dvd v dvd_rfl, Int.emod_self, sub_zero,
      Int.emod_emod_of_dvd v dvd_rfl]
  · show ((wrap w v : Nat) : Int) % _ = _
    rw [hc]
    exact Int.emod_emod_of_dvd v dvd_rfl

/-- C3: on every integer encoding of width `w`, the binary arithmetic
operators `+ - *` and unary negation compute the exact mathematical result
of the operands' values reduced modulo `2 ^ w` (silent fixed-width
wraparound: the result is again a `w`-bit pattern whose value is congruent
to the exact result); in particular under `u8`, for every IEEE oracle and
both verbose settings, `x00 - x01` renders as decimal `255` and hex `xff`. -/
theorem claim_C3 :
    (∀ (e : encoding_t), is_float e = false →
       ∀ (op : operator_t), op = ADD ∨ op = SUBTRACT ∨ op = MULTIPLY →
       ∀ (a b : Nat), a < 2 ^ width e → b < 2 ^ width e →
       ∀ (fm : float_model) (vb : Bool) (pos : Nat),
       ∃ r tr, evaluate_operator2 fm vb pos op ⟨some e, a⟩ ⟨some e, b⟩ = .ok (⟨some e, r⟩, tr) ∧
         r < 2 ^ width e ∧
         Int.ModEq (2 ^ width e) (interp e r)
           (match op with
            | ADD => interp e a + interp e b
            | SUBTRACT => interp e a - interp e b
            | _ => interp e a * interp e b)) ∧
    (∀ (e : encoding_t), is_float e = false → ∀ (a : Nat), a < 2 ^ width e →
       ∀ (fm : float_model) (vb : Bool) (pos : Nat),
       ∃ r tr, evaluate_operator1 fm vb pos NEGATE ⟨some e, a⟩ = .ok (⟨some e, r⟩, tr) ∧
         r < 2 ^ width e ∧ Int.ModEq (2 ^ width e) (interp e r) (-(interp e a))) ∧
    (∀ (fm : float_model) (vb : Bool),
       Except.map Prod.fst (evaluate_line fm vb "x00 - x01" U8) = .ok "255 (xff)") := by
  refine ⟨?_, ?_, ?_⟩
  · intro e hf op hop a b ha hb fm vb pos
    rcases hop with rfl | rfl | rfl <;> cases e <;>
      first
        | exact absurd hf (by decide)
        | exact ⟨_, _, rfl, wrap_lt _ _, interp_ws_wrap _ _ _⟩
  · intro e hf a ha fm vb pos
    cases e <;>
      first
        | exact absurd hf (by decide)
        | exact ⟨_, _, rfl, wrap_lt _ _, interp_ws_wrap _ _ _⟩
  · intro fm vb
    rw [show evaluate_line fm vb "x00 - x01" U8 =
        handle_input fm vb (ample_fuel ("x00 - x01".data)) ("x00 - x01".data) U8 from rfl]
    rw [handle_input_irrel fm0 fm false vb (ample_fuel ("x00 - x01".data))
      ("x00 - x01".data) U8 (Or.inl rfl)]
    rfl

theorem claim_C3_witness :
    ∃ r tr, evaluate_operator2 fm0 false 0 SUBTRACT ⟨some U8, 0⟩ ⟨some U8, 1⟩ =
        .ok (⟨some U8, r⟩, tr) ∧
      r < 2 ^ width U8 ∧
      Int.ModEq (2 ^ width U8) (interp U8 r)
        (match SUBTRACT with
         | ADD => interp U8 0 + interp U8 1
         | SUBTRACT => interp U8 0 - interp U8 1
         | _ => interp U8 0 * interp U8 1) :=
  claim_C3.1 U8 rfl SUBTRACT (Or.inr (Or.inl rfl)) 0 1 (by decide) (by decide) fm0 false 0

/-- C6: under the float encodings, only unary `-` and binary `+ - * /` are
valid applications; `~` in unary position and `%`, `<<`, `>>`, `&`, `^`,
`|` (indeed every operator other than `+ - * /`) in binary position raise
`parse_error` at the current cursor instead of returning a value. -/
theorem claim_C6 : ∀ (e : encoding_t), is_float e = true →
    ∀ (fm : float_model) (vb : Bool) (pos : Nat) (a b : Nat),
    (∀ op : operator_t, op ≠ NEGATE →
       evaluate_operator1 fm vb pos op ⟨some e, a⟩ = .error (.parse_error pos)) ∧
    (∃ r tr, evaluate_operator1 fm vb pos NEGATE ⟨some e, a⟩ = .ok (r, tr)) ∧
    (∀ op : operator_t, op ≠ ADD → op ≠ SUBTRACT → op ≠ MULTIPLY → op ≠ DIVIDE →
       evaluate_operator2 fm vb pos op ⟨some e, a⟩ ⟨some e, b⟩ = .error (.parse_error pos)) ∧
    (∀ op : operator_t, op = ADD ∨ op = SUBTRACT ∨ op = MULTIPLY ∨ op = DIVIDE →
       ∃ r tr, evaluate_operator2 fm vb pos op ⟨some e, a⟩ ⟨some e, b⟩ = .ok (r, tr)) := by
  intro e hf fm vb pos a b
  cases e <;> try exact absurd hf (by decide)
  all_goals
    refine ⟨?_, ⟨_, _, rfl⟩, ?_, ?_⟩
    · intro op hop
      cases op <;> first | exact absurd rfl hop | rfl
    · intro op h1 h2 h3 h4
      cases op <;> first
        | exact absurd rfl h1
        | exact absurd rfl h2
        | exact absurd rfl h3
        | exact absurd rfl h4
        | rfl
    · intro op hop
      rcases hop with rfl | rfl | rfl | rfl <;> exact ⟨_, _, rfl⟩

theorem claim_C6_witness :
    evaluate_operator1 fm0 false 0 NOT ⟨some F32, 1⟩ = .error (.parse_error 0) ∧
    evaluate_operator2 fm0 false 0 MODULUS ⟨some F32, 1⟩ ⟨some F32, 2⟩ =
      .error (.parse_error 0) ∧
    evaluate_operator2 fm0 false 0 LEFT_SHIFT ⟨some F64, 1⟩ ⟨some F64, 2⟩ =
      .error (.parse_error 0) :=
  ⟨(claim_C6 F32 rfl fm0 false 0 1 2).1 NOT (by decide),
   (claim_C6 F32 rfl fm0 false 0 1 2).2.2.1 MODULUS
     (by decide) (by decide) (by decide) (by decide),
   (claim_C6 F64 rfl fm0 false 0 1 2).2.2.1 LEFT_SHIFT
     (by decide) (by decide) (by decide) (by decide)⟩

theorem claim_C5_counterexample :
    parse_value fm0 ("1e400".data) 0 F32 = .error (.range_error 0) ∧
    parse_value fm0 ("1e400".data) 0 F64 = .error (.range_error 0) :=
  ⟨rfl, rfl⟩

/-- C5 (amended): for the float encodings the literal is parsed with the
native conversion and `parse_value` adds no range check of its own, but
the conversion itself stores `ERANGE` when the literal overflows to
infinity, and the shared `errno` check then raises a RangeFault at the
literal's start: a finite literal (decimal/scientific or hexadecimal) at
or above the overflow threshold raises RangeFault instead of yielding an
infinity, `1e400` being the concrete instance at both widths. -/
theorem claim_C5_amended :
    (∀ (fm : float_model) (s : List Char) (pos : Nat) (m : Nat) (e10 : Int)
       (neg : Bool) (p : Nat),
       peek s (skip_whitespace s pos) ≠ 'x' →
       parse_float_lit s (skip_whitespace s pos) = some (.finite m e10, neg, p) →
       lit_overflows m e10 (float_threshold F32) = true →
       parse_value fm s pos F32 = .error (.range_error (skip_whitespace s pos))) ∧
    (∀ (fm : float_model) (s : List Char) (pos : Nat) (m : Nat) (e10 : Int)
       (neg : Bool) (p : Nat),
       peek s (skip_whitespace s pos) ≠ 'x' →
       parse_float_lit s (skip_whitespace s pos) = some (.finite m e10, neg, p) →
       lit_overflows m e10 (float_threshold F64) = true →
       parse_value fm s pos F64 = .error (.range_error (skip_whitespace s pos))) ∧
    (∀ (fm : float_model) (s : List Char) (pos : Nat) (m : Nat) (e2 : Int)
       (neg : Bool) (p : Nat),
       peek s (skip_whitespace s pos) ≠ 'x' →
       parse_float_lit s (skip_whitespace s pos) = some (.hexfinite m e2, neg, p) →
       lit2_overflows m e2 (float_threshold F32) = true →
       parse_value fm s pos F32 = .error (.range_error (skip_whitespace s pos))) ∧
    (∀ (fm : float_model) (s : List Char) (pos : Nat) (m : Nat) (e2 : Int)
       (neg : Bool) (p : Nat),
       peek s (skip_whitespace s pos) ≠ 'x' →
       parse_float_lit s (skip_whitespace s pos) = some (.hexfinite m e2, neg, p) →
       lit2_overflows m e2 (float_threshold F64) = true →
       parse_value fm s pos F64 = .error (.range_error (skip_whitespace s pos))) ∧
    (∀ fm : float_model, parse_value fm ("1e400".data) 0 F32 = .error (.range_error 0)) ∧
    (∀ fm : float_model, parse_value fm ("1e400".data) 0 F64 = .error (.range_error 0)) := by
  have dec32 : ∀ (fm : float_model) (s : List Char) (pos : Nat) (m : Nat) (e10 : Int)
       (neg : Bool) (p : Nat),
       peek s (skip_whitespace s pos) ≠ 'x' →
       parse_float_lit s (skip_whitespace s pos) = some (.finite m e10, neg, p) →
       lit_overflows m e10 (float_threshold F32) = true →
       parse_value fm s pos F32 = .error (.range_error (skip_whitespace s pos)) := by
    intro fm s pos m e10 neg p hx hlit hovf
    simp only [parse_value, strtof_model, if_neg hx, hlit, hovf]
    simp
  have dec64 : ∀ (fm : float_model) (s : List Char) (pos : Nat) (m : Nat) (e10 : Int)
       (neg : Bool) (p : Nat),
       peek s (skip_whitespace s pos) ≠ 'x' →
       parse_float_lit s (skip_whitespace s pos) = some (.finite m e10, neg, p) →
       lit_overflows m e10 (float_threshold F64) = true →
       parse_value fm s pos F64 = .error (.range_error (skip_whitespace s pos)) := by
    intro fm s pos m e10 neg p hx hlit hovf
    simp only [parse_value, strtod_model, if_neg hx, hlit, hovf]
    simp
  refine ⟨dec32, dec64, ?_, ?_, ?_, ?_⟩
  · intro fm s pos m e2 neg p hx hlit hovf
    simp only [parse_value, strtof_model, if_neg hx, hlit, hovf]
    simp
  · intro fm s pos m e2 neg p hx hlit hovf
    simp only [parse_value, strtod_model, if_neg hx, hlit, hovf]
    simp
  · intro fm
    exact dec32 fm ("1e400".data) 0 1 400 false 5 (by decide) (by decide) (by decide)
  · intro fm
    exact dec64 fm ("1e400".data) 0 1 400 false 5 (by decide) (by decide) (by decide)

theorem claim_C5_amended_witness :
    parse_value fm0 ("7e60".data) 0 F32 = .error (.range_error 0) ∧
    parse_value fm0 ("0x1p200".data) 0 F32 = .error (.range_error 0) ∧
    parse_value fm0 ("0x1p2000".data) 0 F64 = .error (.range_error 0) :=
  ⟨claim_C5_amended.1 fm0 ("7e60".data) 0 7 60 false 4 (by decide) (by decide) (by decide),
   claim_C5_amended.2.2.1 fm0 ("0x1p200".data) 0 1 200 false 7
     (by decide) (by decide) (by decide),
   claim_C5_amended.2.2.2.1 fm0 ("0x1p2000".data) 0 1 2000 false 8
     (by decide) (by decide) (by decide)⟩

/-- C8: under every unsigned integer encoding, a decimal literal whose
(white-space-skipped) start is a minus sign directly followed by a digit is
rejected with a RangeFault at that start, whatever the magnitude; in
particular under `u8` the literal `-1` raises RangeFault at offset 0. -/
theorem claim_C8 :
    (∀ (e : encoding_t), is_signed e = false → is_float e = false →
       ∀ (fm : float_model) (s : List Char) (pos : Nat),
       peek s (skip_whitespace s pos) = '-' →
       c_isdigit (peek s (skip_whitespace s pos + 1)) = true →
       parse_value fm s pos e = .error (.range_error (skip_whitespace s pos))) ∧
    (∀ fm : float_model, parse_value fm ("-1".data) 0 U8 = .error (.range_error 0)) := by
  have main : ∀ (e : encoding_t), is_signed e = false → is_float e = false →
       ∀ (fm : float_model) (s : List Char) (pos : Nat),
       peek s (skip_whitespace s pos) = '-' →
       c_isdigit (peek s (skip_whitespace s pos + 1)) = true →
       parse_value fm s pos e = .error (.range_error (skip_whitespace s pos)) := by
    intro e hs hf fm s pos hminus hdigit
    cases e <;> first
      | exact absurd hs (by decide)
      | exact absurd hf (by decide)
      | simp [parse_value, parse_uint, hminus, hdigit]
  exact ⟨main, fun fm => main U8 rfl rfl fm ("-1".data) 0 (by decide) (by decide)⟩

theorem peek_nul (s : List Char) (pos : Nat) (h : s.length ≤ pos) : peek s pos = '\x00' := by
  unfold peek
  rw [dif_neg (by omega)]

theorem digit_pos_lt (s : List Char) (pos : Nat) (h : c_isdigit (peek s pos) = true) :
    pos < s.length := by
  by_contra hge
  rw [peek_nul s pos (by omega)] at h
  exact absurd h (by decide)

theorem xdigit_pos_lt (s : List Char) (pos : Nat) (h : c_isxdigit (peek s pos) = true) :
    pos < s.length := by
  by_contra hge
  rw [peek_nul s pos (by omega)] at h
  exact absurd h (by decide)

theorem skipws_nospace_eq (s : List Char) (p : Nat) (h : c_isspace (peek s p) = false) :
    skip_whitespace s p = p := by
  unfold skip_whitespace
  show skip_ws_go s (s.length + 1) p = p
  simp [skip_ws_go, h]

theorem skip_ws_go_no_space (s : List Char) :
    ∀ fuel pos, s.length ≤ fuel + pos →
    c_isspace (peek s (skip_ws_go s fuel pos)) = false := by
  intro fuel
  induction fuel with
  | zero =>
    intro pos h
    simp only [skip_ws_go]
    rw [peek_nul s pos (by omega)]
    decide
  | succ f ih =>
    intro pos h
    simp only [skip_ws_go]
    cases hsp : c_isspace (peek s pos) with
    | false => simp [hsp]
    | true =>
      simp only [hsp, if_true]
      exact ih (pos + 1) (by omega)

theorem skipws_no_space (s : List Char) (pos : Nat) :
    c_isspace (peek s (skip_whitespace s pos)) = false :=
  skip_ws_go_no_space s (s.length + 1) pos (by omega)

theorem skipws_idem (s : List Char) (pos : Nat) :
    skip_whitespace s (skip_whitespace s pos) = skip_whitespace s pos :=
  skipws_nospace_eq s (skip_whitespace s pos) (skipws_no_space s pos)

theorem isdigit_not_space {d : Char} (h : c_isdigit d = true) : c_isspace d = false := by
  cases hsp : c_isspace d with
  | false => rfl
  | true =>
    simp only [c_isspace, Bool.or_eq_true, decide_eq_true_eq] at hsp
    rcases hsp with ((((rfl | rfl) | rfl) | rfl) | rfl) | rfl <;> exact absurd h (by decide)

theorem isxdigit_not_space {d : Char} (h : c_isxdigit d = true) : c_isspace d = false := by
  cases hsp : c_isspace d with
  | false => rfl
  | true =>
    simp only [c_isspace, Bool.or_eq_true, decide_eq_true_eq] at hsp
    rcases hsp with ((((rfl | rfl) | rfl) | rfl) | rfl) | rfl <;> exact absurd h (by decide)

theorem digits_at_pos_le (s : List Char) :
    ∀ (ds : List Char) (pos : Nat) (d : Char), digits_at s pos (d :: ds) = true →
    pos + ds.length + 1 ≤ s.length := by
  intro ds
  induction ds with
  | nil =>
    intro pos d h
    simp only [digits_at, Bool.and_eq_true, decide_eq_true_eq] at h
    have := digit_pos_lt s pos (by rw [h.1.1]; exact h.1.2)
    simpa using this
  | cons d2 tl ih =>
    intro pos d h
    simp only [digits_at, Bool.and_eq_true, decide_eq_true_eq] at h
    have h2 : digits_at s (pos + 1) (d2 :: tl) = true := by
      simp only [digits_at, Bool.and_eq_true, decide_eq_true_eq]
      exact h.2
    have := ih (pos + 1) d2 h2
    simp only [List.length_cons] at *
    omega

theorem digits_go_spec (s : List Char) :
    ∀ (ds : List Char) (fuel pos acc : Nat),
    digits_at s pos ds = true → ds.length < fuel →
    digits_go s fuel pos acc =
      (ds.foldl (fun a c => a * 10 + digit_to_int c) acc, pos + ds.length) := by
  intro ds
  induction ds with
  | nil =>
    intro fuel pos acc h hf
    cases fuel with
    | zero => omega
    | succ f =>
      simp only [digits_at, Bool.not_eq_true'] at h
      simp [digits_go, h]
  | cons d tl ih =>
    intro fuel pos acc h hf
    cases fuel with
    | zero => simp at hf
    | succ f =>
      simp only [digits_at, Bool.and_eq_true, decide_eq_true_eq] at h
      obtain ⟨⟨hpd, hdd⟩, hrest⟩ := h
      simp only [digits_go, hpd, hdd, if_true, List.foldl_cons]
      rw [ih f (pos + 1) (acc * 10 + digit_to_int d) hrest (by simp at hf; omega)]
      simp only [List.length_cons, Prod.mk.injEq]
      exact ⟨trivial, by omega⟩

theorem parse_digits_spec (s : List Char) (pos : Nat) (ds : List Char)
    (h : digits_at s pos ds = true) :
    parse_digits s pos = (dec_val ds, pos + ds.length) := by
  unfold parse_digits dec_val
  refine digits_go_spec s ds (s.length + 1) pos 0 h ?_
  cases ds with
  | nil => simp
  | cons d tl =>
    have := digits_at_pos_le s tl pos d h
    simp only [List.length_cons]
    omega

theorem digits_at_head (s : List Char) (pos : Nat) (d : Char) (tl : List Char)
    (h : digits_at s pos (d :: tl) = true) :
    peek s pos = d ∧ c_isdigit d = true ∧ digits_at s (pos + 1) tl = true := by
  simp only [digits_at, Bool.and_eq_true, decide_eq_true_eq] at h
  exact ⟨h.1.1, h.1.2, h.2⟩

theorem strtoll_model_neg_spec (s : List Char) (p : Nat) (ds : List Char)
    (hds : ds ≠ []) (hm : peek s p = '-') (hdig : digits_at s (p + 1) ds = true)
    (hid : skip_whitespace s p = p) :
    strtoll_model s p =
      ((if -(dec_val ds : Int) < INT64_MIN then INT64_MIN else -(dec_val ds : Int)),
       p + 1 + ds.length,
       decide (-(dec_val ds : Int) < INT64_MIN)) := by
  rcases ds with _ | ⟨d, tl⟩
  · exact absurd rfl hds
  obtain ⟨hpd, hdd, _⟩ := digits_at_head s (p + 1) d tl hdig
  simp only [strtoll_model, hid, hm]
  simp only [eq_self_iff_true, true_or, if_true]
  rw [parse_digits_spec s (p + 1) (d :: tl) hdig]
  simp only [hpd, hdd, if_true]
  rw [if_neg (by
    have h0 : (0 : Int) ≤ (dec_val (d :: tl) : Int) := Int.ofNat_nonneg _
    have h1 : (0 : Int) ≤ INT64_MAX := by norm_num [INT64_MAX]
    omega : ¬(-(dec_val (d :: tl) : Int) > INT64_MAX))]
  by_cases hmin : -(dec_val (d :: tl) : Int) < INT64_MIN
  · simp [hmin]
  · simp [hmin]

theorem strtoll_model_pos_spec (s : List Char) (p : Nat) (ds : List Char)
    (hds : ds ≠ []) (hdig : digits_at s p ds = true)
    (hid : skip_whitespace s p = p) :
    strtoll_model s p =
      ((if (dec_val ds : Int) > INT64_MAX then INT64_MAX else (dec_val ds : Int)),
       p + ds.length,
       decide ((dec_val ds : Int) > INT64_MAX)) := by
  rcases ds with _ | ⟨d, tl⟩
  · exact absurd rfl hds
  obtain ⟨hpd, hdd, _⟩ := digits_at_head s p d tl hdig
  have hnm : peek s p ≠ '-' := by
    intro hh
    rw [hh] at hpd
    rw [← hpd] at hdd
    exact absurd hdd (by decide)
  have hnp : peek s p ≠ '+' := by
    intro hh
    rw [hh] at hpd
    rw [← hpd] at hdd
    exact absurd hdd (by decide)
  have hsign : ¬(peek s p = '-' ∨ peek s p = '+') := by
    intro hh
    rcases hh with hh | hh
    · exact hnm hh
    · exact hnp hh
  simp only [strtoll_model, hid, if_neg hsign, if_neg hnm]
  rw [parse_digits_spec s p (d :: tl) hdig]
  simp only [hpd, hdd, if_true]
  rw [if_neg (by
    have h0 : (0 : Int) ≤ (dec_val (d :: tl) : Int) := Int.ofNat_nonneg _
    have h1 : INT64_MIN ≤ 0 := by norm_num [INT64_MIN]
    omega : ¬((dec_val (d :: tl) : Int) < INT64_MIN))]
  by_cases hmax : (dec_val (d :: tl) : Int) > INT64_MAX
  · simp [hmax]
  · simp [hmax]

theorem strtoull_model_pos_spec (s : List Char) (p : Nat) (ds : List Char)
    (hds : ds ≠ []) (hdig : digits_at s p ds = true)
    (hid : skip_whitespace s p = p) :
    strtoull_model s p =
      ((if dec_val ds > UINT64_MAX then UINT64_MAX else dec_val ds),
       p + ds.length,
       decide (dec_val ds > UINT64_MAX)) := by
  rcases ds with _ | ⟨d, tl⟩
  · exact absurd rfl hds
  obtain ⟨hpd, hdd, _⟩ := digits_at_head s p d tl hdig
  have hnm : peek s p ≠ '-' := by
    intro hh
    rw [hh] at hpd
    rw [← hpd] at hdd
    exact absurd hdd (by decide)
  have hnp : peek s p ≠ '+' := by
    intro hh
    rw [hh] at hpd
    rw [← hpd] at hdd
    exact absurd hdd (by decide)
  have hsign : ¬(peek s p = '-' ∨ peek s p = '+') := by
    intro hh
    rcases hh with hh | hh
    · exact hnm hh
    · exact hnp hh
  simp only [strtoull_model, hid, if_neg hsign, if_neg hnm]
  rw [parse_digits_spec s p (d :: tl) hdig]
  simp only [hpd, hdd, if_true]
  by_cases hmax : dec_val (d :: tl) > UINT64_MAX
  · simp [hmax]
  · simp [hmax]

theorem parse_int_oob (s : List Char) (p : Nat) (neg : Bool) (ds : List Char) (lo hi : Int)
    (hds : ds ≠ [])
    (hat : if neg then peek s p = '-' ∧ digits_at s (p + 1) ds = true
           else digits_at s p ds = true)
    (hid : skip_whitespace s p = p)
    (hrange : (if neg then -(dec_val ds : Int) else (dec_val ds : Int)) < lo ∨
              hi < (if neg then -(dec_val ds : Int) else (dec_val ds : Int))) :
    (parse_int s p lo hi).2.2 = true := by
  cases neg with
  | true =>
    simp only [if_true] at hat hrange
    simp only [parse_int, strtoll_model_neg_spec s p ds hds hat.1 hat.2 hid]
    by_cases hmin : -(dec_val ds : Int) < INT64_MIN
    · simp [hmin]
    · simp only [if_neg hmin]
      rcases hrange with hr | hr
      · simp [hmin, hr]
      · simp [hmin, hr]
  | false =>
    simp only [Bool.false_eq_true, if_false] at hat hrange
    simp only [parse_int, strtoll_model_pos_spec s p ds hds hat hid]
    by_cases hmax : (dec_val ds : Int) > INT64_MAX
    · simp [hmax]
    · simp only [if_neg hmax]
      rcases hrange with hr | hr
      · simp [hmax, hr]
      · simp [hmax, hr]

theorem parse_uint_guard (s : List Char) (p : Nat) (max : Nat)
    (hm : peek s p = '-') (hd : c_isdigit (peek s (p + 1)) = true) :
    parse_uint s p max = (0, p, true) := by
  simp [parse_uint, hm, hd]

theorem parse_uint_oob (s : List Char) (p : Nat) (ds : List Char) (max : Nat)
    (hds : ds ≠ []) (hdig : digits_at s p ds = true)
    (hid : skip_whitespace s p = p)
    (hrange : max < dec_val ds) :
    (parse_uint s p max).2.2 = true := by
  have hnm : peek s p ≠ '-' := by
    rcases ds with _ | ⟨d, tl⟩
    · exact absurd rfl hds
    obtain ⟨hpd, hdd, _⟩ := digits_at_head s p d tl hdig
    intro hh
    rw [hh] at hpd
    rw [← hpd] at hdd
    exact absurd hdd (by decide)
  simp only [parse_uint]
  rw [if_neg (by
    intro hh
    exact hnm hh.1)]
  simp only [strtoull_model_pos_spec s p ds hds hdig hid]
  by_cases hmax : dec_val ds > UINT64_MAX
  · simp [hmax]
  · simp only [if_neg hmax]
    simp [hrange]

/-- C4: for every integer encoding, a decimal literal (optional minus sign
followed by a digit run) whose exact value lies outside the encoding's
`[min, max]` range raises RangeFault at the literal's start position, which
is the cursor after the leading white space, not the literal's end; in
particular under `s8` the literal in `" 128"` faults at offset 1, where the
`1` begins. -/
theorem claim_C4 : ∀ (e : encoding_t), is_float e = false →
    ∀ (fm : float_model) (s : List Char) (pos : Nat) (neg : Bool) (ds : List Char),
    ds ≠ [] →
    (if neg then peek s (skip_whitespace s pos) = '-' ∧
        digits_at s (skip_whitespace s pos + 1) ds = true
     else digits_at s (skip_whitespace s pos) ds = true) →
    ((if neg then -(dec_val ds : Int) else (dec_val ds : Int)) < emin e ∨
     emax e < (if neg then -(dec_val ds : Int) else (dec_val ds : Int))) →
    parse_value fm s pos e = .error (.range_error (skip_whitespace s pos)) := by
  intro e hf fm s pos neg ds hds hat hrange
  have hid : skip_whitespace s (skip_whitespace s pos) = skip_whitespace s pos :=
    skipws_idem s pos
  have hx : peek s (skip_whitespace s pos) ≠ 'x' := by
    cases neg with
    | true =>
      simp only [if_true] at hat
      rw [hat.1]
      decide
    | false =>
      simp only [Bool.false_eq_true, if_false] at hat
      rcases ds with _ | ⟨d, tl⟩
      · exact absurd rfl hds
      obtain ⟨hpd, hdd, _⟩ := digits_at_head s _ d tl hat
      intro hh
      rw [hh] at hpd
      rw [← hpd] at hdd
      exact absurd hdd (by decide)
  cases e
  case F32 => exact absurd hf (by decide)
  case F64 => exact absurd hf (by decide)
  case S8 =>
    rcases hpi : parse_int s (skip_whitespace s pos) (emin S8) (emax S8) with ⟨v0, q0, er0⟩
    have her := parse_int_oob s (skip_whitespace s pos) neg ds (emin S8) (emax S8)
      hds hat hid hrange
    rw [hpi] at her
    simp only at her
    simp only [parse_value, if_neg hx, hpi]
    simp [her]
  case S16 =>
    rcases hpi : parse_int s (skip_whitespace s pos) (emin S16) (emax S16) with ⟨v0, q0, er0⟩
    have her := parse_int_oob s (skip_whitespace s pos) neg ds (emin S16) (emax S16)
      hds hat hid hrange
    rw [hpi] at her
    simp only at her
    simp only [parse_value, if_neg hx, hpi]
    simp [her]
  case S32 =>
    rcases hpi : parse_int s (skip_whitespace s pos) (emin S32) (emax S32) with ⟨v0, q0, er0⟩
    have her := parse_int_oob s (skip_whitespace s pos) neg ds (emin S32) (emax S32)
      hds hat hid hrange
    rw [hpi] at her
    simp only at her
    simp only [parse_value, if_neg hx, hpi]
    simp [her]
  case S64 =>
    rcases hpi : parse_int s (skip_whitespace s pos) (emin S64) (emax S64) with ⟨v0, q0, er0⟩
    have her := parse_int_oob s (skip_whitespace s pos) neg ds (emin S64) (emax S64)
      hds hat hid hrange
    rw [hpi] at her
    simp only at her
    simp only [parse_value, if_neg hx, hpi]
    simp [her]
  case U8 =>
    cases neg with
    | true =>
      simp only [if_true] at hat
      have hd1 : c_isdigit (peek s (skip_whitespace s pos + 1)) = true := by
        rcases ds with _ | ⟨d, tl⟩
        · exact absurd rfl hds
        obtain ⟨hpd, hdd, _⟩ := digits_at_head s _ d tl hat.2
        rw [hpd]; exact hdd
      simp only [parse_value, if_neg hx,
        parse_uint_guard s (skip_whitespace s pos) (2 ^ 8 - 1) hat.1 hd1]
      simp
    | false =>
      simp only [Bool.false_eq_true, if_false] at hat hrange
      have hmax : (2 ^ 8 - 1 : Nat) < dec_val ds := by
        rcases hrange with hr | hr
        · exfalso
          have h0 : (0 : Int) ≤ (dec_val ds : Int) := Int.ofNat_nonneg _
          simp only [emin] at hr
          omega
        · simp only [emax] at hr
          have hc : ((2 ^ 8 - 1 : Nat) : Int) = 2 ^ 8 - 1 := by norm_num
          omega
      rcases hpi : parse_uint s (skip_whitespace s pos) (2 ^ 8 - 1) with ⟨v0, q0, er0⟩
      have her := parse_uint_oob s (skip_whitespace s pos) ds (2 ^ 8 - 1) hds hat hid hmax
      rw [hpi] at her
      simp only at her
      simp only [parse_value, if_neg hx, hpi]
      simp [her]
  case U16 =>
    cases neg with
    | true =>
      simp only [if_true] at hat
      have hd1 : c_isdigit (peek s (skip_whitespace s pos + 1)) = true := by
        rcases ds with _ | ⟨d, tl⟩
        · exact absurd rfl hds
        obtain ⟨hpd, hdd, _⟩ := digits_at_head s _ d tl hat.2
        rw [hpd]; exact hdd
      simp only [parse_value, if_neg hx,
        parse_uint_guard s (skip_whitespace s pos) (2 ^ 16 - 1) hat.1 hd1]
      simp
    | false =>
      simp only [Bool.false_eq_true, if_false] at hat hrange
      have hmax : (2 ^ 16 - 1 : Nat) < dec_val ds := by
        rcases hrange with hr | hr
        · exfalso
          have h0 : (0 : Int) ≤ (dec_val ds : Int) := Int.ofNat_nonneg _
          simp only [emin] at hr
          omega
        · simp only [emax] at hr
          have hc : ((2 ^ 16 - 1 : Nat) : Int) = 2 ^ 16 - 1 := by norm_num
          omega
      rcases hpi : parse_uint s (skip_whitespace s pos) (2 ^ 16 - 1) with ⟨v0, q0, er0⟩
      have her := parse_uint_oob s (skip_whitespace s pos) ds (2 ^ 16 - 1) hds hat hid hmax
      rw [hpi] at her
      simp only at her
      simp only [parse_value, if_neg hx, hpi]
      simp [her]
  case U32 =>
    cases neg with
    | true =>
      simp only [if_true] at hat
      have hd1 : c_isdigit (peek s (skip_whitespace s pos + 1)) = true := by
        rcases ds with _ | ⟨d, tl⟩
        · exact absurd rfl hds
        obtain ⟨hpd, hdd, _⟩ := digits_at_head s _ d tl hat.2
        rw [hpd]; exact hdd
      simp only [parse_value, if_neg hx,
        parse_uint_guard s (skip_whitespace s pos) (2 ^ 32 - 1) hat.1 hd1]
      simp
    | false =>
      simp only [Bool.false_eq_true, if_false] at hat hrange
      have hmax : (2 ^ 32 - 1 : Nat) < dec_val ds := by
        rcases hrange with hr | hr
        · exfalso
          have h0 : (0 : Int) ≤ (dec_val ds : Int) := Int.ofNat_nonneg _
          simp only [emin] at hr
          omega
        · simp only [emax] at hr
          have hc : ((2 ^ 32 - 1 : Nat) : Int) = 2 ^ 32 - 1 := by norm_num
          omega
      rcases hpi : parse_uint s (skip_whitespace s pos) (2 ^ 32 - 1) with ⟨v0, q0, er0⟩
      have her := parse_uint_oob s (skip_whitespace s pos) ds (2 ^ 32 - 1) hds hat hid hmax
      rw [hpi] at her
      simp only at her
      simp only [parse_value, if_neg hx, hpi]
      simp [her]
  case U64 =>
    cases neg with
    | true =>
      simp only [if_true] at hat
      have hd1 : c_isdigit (peek s (skip_whitespace s pos + 1)) = true := by
        rcases ds with _ | ⟨d, tl⟩
        · exact absurd rfl hds
        obtain ⟨hpd, hdd, _⟩ := digits_at_head s _ d tl hat.2
        rw [hpd]; exact hdd
      simp only [parse_value, if_neg hx,
        parse_uint_guard s (skip_whitespace s pos) (2 ^ 64 - 1) hat.1 hd1]
      simp
    | false =>
      simp only [Bool.false_eq_true, if_false] at hat hrange
      have hmax : (2 ^ 64 - 1 : Nat) < dec_val ds := by
        rcases hrange with hr | hr
        · exfalso
          have h0 : (0 : Int) ≤ (dec_val ds : Int) := Int.ofNat_nonneg _
          simp only [emin] at hr
          omega
        · simp only [emax] at hr
          have hc : ((2 ^ 64 - 1 : Nat) : Int) = 2 ^ 64 - 1 := by norm_num
          omega
      rcases hpi : parse_uint s (skip_whitespace s pos) (2 ^ 64 - 1) with ⟨v0, q0, er0⟩
      have her := parse_uint_oob s (skip_whitespace s pos) ds (2 ^ 64 - 1) hds hat hid hmax
      rw [hpi] at her
      simp only at her
      simp only [parse_value, if_neg hx, hpi]
      simp [her]

theorem claim_C4_witness :
    parse_value fm0 (" 128".data) 0 S8 = .error (.range_error 1) :=
  claim_C4 S8 rfl fm0 (" 128".data) 0 false ['1', '2', '8'] (by decide) (by decide)
    (by decide)

theorem digit_to_int_le (c : Char) : digit_to_int c ≤ 15 := by
  have e0 : '0'.toNat = 48 := rfl
  have e9 : '9'.toNat = 57 := rfl
  have ea : 'a'.toNat = 97 := rfl
  have ef : 'f'.toNat = 102 := rfl
  have eA : 'A'.toNat = 65 := rfl
  have eF : 'F'.toNat = 70 := rfl
  unfold digit_to_int
  split_ifs with h1 h2 h3
  · have ha : '0'.toNat ≤ c.toNat := h1.1
    have hb : c.toNat ≤ '9'.toNat := h1.2
    omega
  · have ha : 'a'.toNat ≤ c.toNat := h2.1
    have hb : c.toNat ≤ 'f'.toNat := h2.2
    omega
  · have ha : 'A'.toNat ≤ c.toNat := h3.1
    have hb : c.toNat ≤ 'F'.toNat := h3.2
    omega
  · omega

theorem hex_at_head (s : List Char) (pos : Nat) (d : Char) (tl : List Char)
    (h : hex_at s pos (d :: tl) = true) :
    peek s pos = d ∧ c_isxdigit d = true ∧ hex_at s (pos + 1) tl = true := by
  simp only [hex_at, Bool.and_eq_true, decide_eq_true_eq] at h
  exact ⟨h.1.1, h.1.2, h.2⟩

theorem hex_val_init (ds : List Char) : ∀ a : Nat,
    List.foldl (fun x c => x * 16 + digit_to_int c) a ds = a * 16 ^ ds.length + hex_val ds := by
  induction ds with
  | nil => intro a; simp [hex_val]
  | cons d tl ih =>
    intro a
    simp only [List.foldl_cons, List.length_cons]
    rw [ih (a * 16 + digit_to_int d)]
    have h2 : hex_val (d :: tl) = digit_to_int d * 16 ^ tl.length + hex_val tl := by
      have h0 : hex_val (d :: tl) =
          List.foldl (fun x c => x * 16 + digit_to_int c) (0 * 16 + digit_to_int d) tl := rfl
      rw [h0, ih (0 * 16 + digit_to_int d)]
      ring
    rw [h2]
    ring

theorem hex_val_cons (d : Char) (tl : List Char) :
    hex_val (d :: tl) = digit_to_int d * 16 ^ tl.length + hex_val tl := by
  have h0 : hex_val (d :: tl) =
      List.foldl (fun x c => x * 16 + digit_to_int c) (0 * 16 + digit_to_int d) tl := rfl
  rw [h0, hex_val_init tl (0 * 16 + digit_to_int d)]
  ring

theorem hex_val_lt (ds : List Char) : hex_val ds < 16 ^ ds.length := by
  induction ds with
  | nil => simp [hex_val]
  | cons d tl ih =>
    have hd := digit_to_int_le d
    rw [hex_val_cons]
    simp only [List.length_cons, pow_succ]
    nlinarith

theorem strtox_go_ok (s : List Char) :
    ∀ (ds : List Char) (p v rem : Nat), hex_at s p ds = true → ds ≠ [] →
    ds.length ≤ rem → (v + 16) * 16 ^ (ds.length - 1) ≤ 2 ^ 64 →
    strtox_go s rem p v =
      (v * 16 ^ (ds.length - 1) + hex_val ds, p + ds.length, false) := by
  intro ds
  induction ds with
  | nil => intro p v rem _ hds; exact absurd rfl hds
  | cons d tl ih =>
    intro p v rem hat hds hrem hbound
    obtain ⟨hpd, hdd, htl⟩ := hex_at_head s p d tl hat
    cases rem with
    | zero => simp at hrem
    | succ r =>
      cases tl with
      | nil =>
        have hnx : c_isxdigit (peek s (p + 1)) = false := by
          simp only [hex_at, Bool.not_eq_true'] at htl
          exact htl
        simp only [strtox_go, hpd, hnx, Bool.false_eq_true, if_false]
        have hv1 : hex_val [d] = digit_to_int d := by
          have : hex_val [d] = 0 * 16 + digit_to_int d := rfl
          omega
        simp [hv1]
      | cons d2 tl2 =>
        have hd2 := (hex_at_head s (p + 1) d2 tl2 htl).1
        have hd2x := (hex_at_head s (p + 1) d2 tl2 htl).2.1
        have hnx : c_isxdigit (peek s (p + 1)) = true := by rw [hd2]; exact hd2x
        have hdle := digit_to_int_le d
        have hpow1 : (1 : Nat) ≤ 16 ^ ((d2 :: tl2).length - 1) :=
          Nat.one_le_pow _ _ (by norm_num)
        have hsplit : 16 ^ ((d :: d2 :: tl2).length - 1) =
            16 * 16 ^ ((d2 :: tl2).length - 1) := by
          simp only [List.length_cons]
          rw [show tl2.length + 1 + 1 - 1 = (tl2.length + 1 - 1) + 1 from by omega]
          rw [pow_succ]
          ring
        rw [hsplit] at hbound
        have h16le : (16 : Nat) ≤ 16 * 16 ^ ((d2 :: tl2).length - 1) := by nlinarith
        have h1 : (v + digit_to_int d) * 16 < 2 ^ 64 := by
          calc (v + digit_to_int d) * 16 < (v + 16) * 16 := by omega
            _ ≤ (v + 16) * (16 * 16 ^ ((d2 :: tl2).length - 1)) :=
                Nat.mul_le_mul_left _ h16le
            _ ≤ 2 ^ 64 := hbound
        have hmod : (v + digit_to_int d) <<< 4 % 2 ^ 64 = (v + digit_to_int d) * 16 := by
          rw [Nat.shiftLeft_eq]
          norm_num
          norm_num at h1
          omega
        simp only [strtox_go, hpd, hnx, if_true]
        rw [hmod]
        rw [ih (p + 1) ((v + digit_to_int d) * 16) r htl (by simp)
          (by simp only [List.length_cons] at hrem ⊢; omega)
          (by
            calc ((v + digit_to_int d) * 16 + 16) * 16 ^ ((d2 :: tl2).length - 1)
                = (v + digit_to_int d + 1) * (16 * 16 ^ ((d2 :: tl2).length - 1)) := by ring
              _ ≤ (v + 16) * (16 * 16 ^ ((d2 :: tl2).length - 1)) :=
                  Nat.mul_le_mul_right _ (by omega)
              _ ≤ 2 ^ 64 := hbound)]
        rw [hex_val_cons d (d2 :: tl2)]
        simp only [List.length_cons, Prod.mk.injEq]
        refine ⟨?_, by omega, trivial⟩
        have hn2 : tl2.length + 1 - 1 = tl2.length := by omega
        have hn3 : tl2.length + 1 + 1 - 1 = tl2.length + 1 := by omega
        rw [hn2, hn3, pow_succ]
        ring

theorem skip_zeros_go_spec (s : List Char) :
    ∀ (z fuel p : Nat), (∀ i, i < z → peek s (p + i) = '0') → peek s (p + z) ≠ '0' →
    z < fuel → skip_zeros_go s fuel p = p + z := by
  intro z
  induction z with
  | zero =>
    intro fuel p _ hnz hf
    cases fuel with
    | zero => omega
    | succ f =>
      simp only [skip_zeros_go]
      rw [if_neg (by simpa using hnz)]
      omega
  | succ z ih =>
    intro fuel p hz hnz hf
    cases fuel with
    | zero => omega
    | succ f =>
      simp only [skip_zeros_go]
      rw [if_pos (by simpa using hz 0 (by omega))]
      rw [ih f (p + 1) (fun i hi => by
          have := hz (i + 1) (by omega)
          simpa [Nat.add_assoc, Nat.add_comm 1 i] using this)
        (by
          have : p + 1 + z = p + (z + 1) := by omega
          rw [this]
          exact hnz)
        (by omega)]
      omega

theorem hex_at_all (s : List Char) : ∀ (ds : List Char) (pos : Nat), hex_at s pos ds = true →
    ∀ i, i < ds.length → c_isxdigit (peek s (pos + i)) = true := by
  intro ds
  induction ds with
  | nil => intro pos _ i hi; simp at hi
  | cons d tl ih =>
    intro pos h i hi
    obtain ⟨hpd, hdd, htl⟩ := hex_at_head s pos d tl h
    cases i with
    | zero => simpa [hpd] using hdd
    | succ i =>
      have := ih (pos + 1) htl i (by simpa using hi)
      simpa [Nat.add_assoc, Nat.add_comm 1 i] using this

theorem strtox_go_erange (s : List Char) :
    ∀ (rem p v : Nat), (∀ i, i ≤ rem → c_isxdigit (peek s (p + i)) = true) →
    strtox_go s rem p v = (0, p + rem, true) := by
  intro rem
  induction rem with
  | zero => intro p v _; simp [strtox_go]
  | succ r ih =>
    intro p v h
    simp only [strtox_go]
    rw [if_pos (by simpa using h 1 (by omega))]
    rw [ih (p + 1) _ (fun i hi => by
        have := h (i + 1) (by omega)
        simpa [Nat.add_assoc, Nat.add_comm 1 i] using this)]
    rw [show p + 1 + r = p + (r + 1) from by omega]

theorem strtox_spec (s : List Char) (pos z : Nat) (d : Char) (tl : List Char) (md : Nat)
    (hx : peek s pos = 'x')
    (hz : ∀ i, i < z → peek s (pos + 1 + i) = '0')
    (hhex : hex_at s (pos + 1 + z) (d :: tl) = true)
    (hd0 : d ≠ '0')
    (hmd16 : md ≤ 16) :
    (tl.length + 1 ≤ md →
       strtox s pos md = (hex_val (d :: tl), pos + 1 + z + (tl.length + 1), false)) ∧
    (md < tl.length + 1 →
       strtox s pos md = (0, pos + 1 + z + md, true)) := by
  obtain ⟨hpd, hdx, _⟩ := hex_at_head s (pos + 1 + z) d tl hhex
  have hguard : c_isxdigit (peek s (pos + 1)) = true := by
    cases z with
    | zero => rw [show pos + 1 + 0 = pos + 1 from by omega] at hpd; rw [hpd]; exact hdx
    | succ z2 =>
      have h0 := hz 0 (by omega)
      rw [show pos + 1 + 0 = pos + 1 from by omega] at h0
      rw [h0]
      decide
  have hnz : peek s (pos + 1 + z) ≠ '0' := by
    rw [hpd]
    exact hd0
  have hzlt : z < s.length + 1 := by
    cases z with
    | zero => omega
    | succ z2 =>
      have h0 := hz z2 (by omega)
      have : pos + 1 + z2 < s.length := by
        by_contra hge
        rw [peek_nul s (pos + 1 + z2) (by omega)] at h0
        exact absurd h0 (by decide)
      omega
  have hskip : skip_zeros_go s (s.length + 1) (pos + 1) = pos + 1 + z := by
    exact skip_zeros_go_spec s z (s.length + 1) (pos + 1) hz hnz hzlt
  have hhd : c_isxdigit (peek s (pos + 1 + z)) = true := by rw [hpd]; exact hdx
  constructor
  · intro hle
    have hok := strtox_go_ok s (d :: tl) (pos + 1 + z) 0 md hhex (by simp)
      (by simpa using hle)
      (by
        have h1 : (0 + 16 : Nat) * 16 ^ ((d :: tl).length - 1) = 16 ^ (tl.length + 1) := by
          simp only [List.length_cons, Nat.add_sub_cancel, Nat.zero_add]
          rw [pow_succ]
          ring
        rw [h1]
        calc (16 : Nat) ^ (tl.length + 1) ≤ 16 ^ 16 :=
            Nat.pow_le_pow_right (by norm_num) (by omega)
          _ = 2 ^ 64 := by norm_num)
    simp only [strtox]
    rw [if_pos ⟨hx, hguard⟩, hskip, if_pos hhd, hok]
    simp only [List.length_cons, Nat.add_sub_cancel, Nat.zero_mul, Nat.zero_add]
  · intro hgt
    have her := strtox_go_erange s md (pos + 1 + z) 0 (fun i hi =>
      hex_at_all s (d :: tl) (pos + 1 + z) hhex i (by simp; omega))
    simp only [strtox]
    rw [if_pos ⟨hx, hguard⟩, hskip, if_pos hhd, her]

/-- C7: for every encoding, a hex literal `x` followed by digits first has
its leading zero digits skipped; if the remaining significant digit run
fits in the encoding's width in hex digits (2/4/8/16 for 8/16/32/64 bits)
the literal parses to its accumulated unsigned value with the cursor past
the run, and one additional significant digit raises RangeFault at the
literal's start. -/
theorem claim_C7 : ∀ (e : encoding_t) (fm : float_model) (s : List Char) (pos z : Nat)
    (d : Char) (tl : List Char),
    peek s pos = 'x' →
    (∀ i, i < z → peek s (pos + 1 + i) = '0') →
    hex_at s (pos + 1 + z) (d :: tl) = true →
    d ≠ '0' →
    ((d :: tl).length ≤ width e / 4 →
       parse_value fm s pos e =
         .ok (⟨some e, hex_val (d :: tl)⟩, pos + 1 + z + (d :: tl).length)) ∧
    (width e / 4 < (d :: tl).length →
       parse_value fm s pos e = .error (.range_error pos)) := by
  intro e fm s pos z d tl hx hz hhex hd0
  have hid : skip_whitespace s pos = pos :=
    skipws_nospace_eq s pos (by rw [hx]; decide)
  cases e
  case S8 =>
    constructor
    · intro hle
      simp only [width, List.length_cons] at hle
      have hok := (strtox_spec s pos z d tl 2 hx hz hhex hd0 (by norm_num)).1 (by omega)
      simp only [parse_value, hid]
      rw [if_pos hx]
      simp only [hok]
      have hlt : hex_val (d :: tl) < 2 ^ 8 := by
        have h1 := hex_val_lt (d :: tl)
        have h2 : (16 : Nat) ^ (d :: tl).length ≤ 16 ^ 2 :=
          Nat.pow_le_pow_right (by norm_num) (by simp only [List.length_cons]; omega)
        have h3 : (16 : Nat) ^ 2 = 2 ^ 8 := by norm_num
        omega
      rw [if_neg (by simp), if_neg (by omega)]
      rw [Nat.mod_eq_of_lt hlt]
      simp
    · intro hgt
      simp only [width, List.length_cons] at hgt
      have her := (strtox_spec s pos z d tl 2 hx hz hhex hd0 (by norm_num)).2 (by omega)
      simp only [parse_value, hid]
      rw [if_pos hx]
      simp only [her]
      simp
  case S16 =>
    constructor
    · intro hle
      simp only [width, List.length_cons] at hle
      have hok := (strtox_spec s pos z d tl 4 hx hz hhex hd0 (by norm_num)).1 (by omega)
      simp only [parse_value, hid]
      rw [if_pos hx]
      simp only [hok]
      have hlt : hex_val (d :: tl) < 2 ^ 16 := by
        have h1 := hex_val_lt (d :: tl)
        have h2 : (16 : Nat) ^ (d :: tl).length ≤ 16 ^ 4 :=
          Nat.pow_le_pow_right (by norm_num) (by simp only [List.length_cons]; omega)
        have h3 : (16 : Nat) ^ 4 = 2 ^ 16 := by norm_num
        omega
      rw [if_neg (by simp), if_neg (by omega)]
      rw [Nat.mod_eq_of_lt hlt]
      simp
    · intro hgt
      simp only [width, List.length_cons] at hgt
      have her := (strtox_spec s pos z d tl 4 hx hz hhex hd0 (by norm_num)).2 (by omega)
      simp only [parse_value, hid]
      rw [if_pos hx]
      simp only [her]
      simp
  case S32 =>
    constructor
    · intro hle
      simp only [width, List.length_cons] at hle
      have hok := (strtox_spec s pos z d tl 8 hx hz hhex hd0 (by norm_num)).1 (by omega)
      simp only [parse_value, hid]
      rw [if_pos hx]
      simp only [hok]
      have hlt : hex_val (d :: tl) < 2 ^ 32 := by
        have h1 := hex_val_lt (d :: tl)
        have h2 : (16 : Nat) ^ (d :: tl).length ≤ 16 ^ 8 :=
          Nat.pow_le_pow_right (by norm_num) (by simp only [List.length_cons]; omega)
        have h3 : (16 : Nat) ^ 8 = 2 ^ 32 := by norm_num
        omega
      rw [if_neg (by simp), if_neg (by omega)]
      rw [Nat.mod_eq_of_lt hlt]
      simp
    · intro hgt
      simp only [width, List.length_cons] at hgt
      have her := (strtox_spec s pos z d tl 8 hx hz hhex hd0 (by norm_num)).2 (by omega)
      simp only [parse_value, hid]
      rw [if_pos hx]
      simp only [her]
      simp
  case S64 =>
    constructor
    · intro hle
      simp only [width, List.length_cons] at hle
      have hok := (strtox_spec s pos z d tl 16 hx hz hhex hd0 (by norm_num)).1 (by omega)
      simp only [parse_value, hid]
      rw [if_pos hx]
      simp only [hok]
      have hlt : hex_val (d :: tl) < 2 ^ 64 := by
        have h1 := hex_val_lt (d :: tl)
        have h2 : (16 : Nat) ^ (d :: tl).length ≤ 16 ^ 16 :=
          Nat.pow_le_pow_right (by norm_num) (by simp only [List.length_cons]; omega)
        have h3 : (16 : Nat) ^ 16 = 2 ^ 64 := by norm_num
        omega
      rw [if_neg (by simp), if_neg (by omega)]
      rw [Nat.mod_eq_of_lt hlt]
      simp
    · intro hgt
      simp only [width, List.length_cons] at hgt
      have her := (strtox_spec s pos z d tl 16 hx hz hhex hd0 (by norm_num)).2 (by omega)
      simp only [parse_value, hid]
      rw [if_pos hx]
      simp only [her]
      simp
  case U8 =>
    constructor
    · intro hle
      simp only [width, List.length_cons] at hle
      have hok := (strtox_spec s pos z d tl 2 hx hz hhex hd0 (by norm_num)).1 (by omega)
      simp only [parse_value, hid]
      rw [if_pos hx]
      simp only [hok]
      have hlt : hex_val (d :: tl) < 2 ^ 8 := by
        have h1 := hex_val_lt (d :: tl)
        have h2 : (16 : Nat) ^ (d :: tl).length ≤ 16 ^ 2 :=
          Nat.pow_le_pow_right (by norm_num) (by simp only [List.length_cons]; omega)
        have h3 : (16 : Nat) ^ 2 = 2 ^ 8 := by norm_num
        omega
      rw [if_neg (by simp), if_neg (by omega)]
      rw [Nat.mod_eq_of_lt hlt]
      simp
    · intro hgt
      simp only [width, List.length_cons] at hgt
      have her := (strtox_spec s pos z d tl 2 hx hz hhex hd0 (by norm_num)).2 (by omega)
      simp only [parse_value, hid]
      rw [if_pos hx]
      simp only [her]
      simp
  case U16 =>
    constructor
    · intro hle
      simp only [width, List.length_cons] at hle
      have hok := (strtox_spec s pos z d tl 4 hx hz hhex hd0 (by norm_num)).1 (by omega)
      simp only [parse_value, hid]
      rw [if_pos hx]
      simp only [hok]
      have hlt : hex_val (d :: tl) < 2 ^ 16 := by
        have h1 := hex_val_lt (d :: tl)
        have h2 : (16 : Nat) ^ (d :: tl).length ≤ 16 ^ 4 :=
          Nat.pow_le_pow_right (by norm_num) (by simp only [List.length_cons]; omega)
        have h3 : (16 : Nat) ^ 4 = 2 ^ 16 := by norm_num
        omega
      rw [if_neg (by simp), if_neg (by omega)]
      rw [Nat.mod_eq_of_lt hlt]
      simp
    · intro hgt
      simp only [width, List.length_cons] at hgt
      have her := (strtox_spec s pos z d tl 4 hx hz hhex hd0 (by norm_num)).2 (by omega)
      simp only [parse_value, hid]
      rw [if_pos hx]
      simp only [her]
      simp
  case U32 =>
    constructor
    · intro hle
      simp only [width, List.length_cons] at hle
      have hok := (strtox_spec s pos z d tl 8 hx hz hhex hd0 (by norm_num)).1 (by omega)
      simp only [parse_value, hid]
      rw [if_pos hx]
      simp only [hok]
      have hlt : hex_val (d :: tl) < 2 ^ 32 := by
        have h1 := hex_val_lt (d :: tl)
        have h2 : (16 : Nat) ^ (d :: tl).length ≤ 16 ^ 8 :=
          Nat.pow_le_pow_right (by norm_num) (by simp only [List.length_cons]; omega)
        have h3 : (16 : Nat) ^ 8 = 2 ^ 32 := by norm_num
        omega
      rw [if_neg (by simp), if_neg (by omega)]
      rw [Nat.mod_eq_of_lt hlt]
      simp
    · intro hgt
      simp only [width, List.length_cons] at hgt
      have her := (strtox_spec s pos z d tl 8 hx hz hhex hd0 (by norm_num)).2 (by omega)
      simp only [parse_value, hid]
      rw [if_pos hx]
      simp only [her]
      simp
  case U64 =>
    constructor
    · intro hle
      simp only [width, List.length_cons] at hle
      have hok := (strtox_spec s pos z d tl 16 hx hz hhex hd0 (by norm_num)).1 (by omega)
      simp only [parse_value, hid]
      rw [if_pos hx]
      simp only [hok]
      have hlt : hex_val (d :: tl) < 2 ^ 64 := by
        have h1 := hex_val_lt (d :: tl)
        have h2 : (16 : Nat) ^ (d :: tl).length ≤ 16 ^ 16 :=
          Nat.pow_le_pow_right (by norm_num) (by simp only [List.length_cons]; omega)
        have h3 : (16 : Nat) ^ 16 = 2 ^ 64 := by norm_num
        omega
      rw [if_neg (by simp), if_neg (by omega)]
      rw [Nat.mod_eq_of_lt hlt]
      simp
    · intro hgt
      simp only [width, List.length_cons] at hgt
      have her := (strtox_spec s pos z d tl 16 hx hz hhex hd0 (by norm_num)).2 (by omega)
      simp only [parse_value, hid]
      rw [if_pos hx]
      simp only [her]
      simp
  case F32 =>
    constructor
    · intro hle
      simp only [width, List.length_cons] at hle
      have hok := (strtox_spec s pos z d tl 8 hx hz hhex hd0 (by norm_num)).1 (by omega)
      simp only [parse_value, hid]
      rw [if_pos hx]
      simp only [hok]
      have hlt : hex_val (d :: tl) < 2 ^ 32 := by
        have h1 := hex_val_lt (d :: tl)
        have h2 : (16 : Nat) ^ (d :: tl).length ≤ 16 ^ 8 :=
          Nat.pow_le_pow_right (by norm_num) (by simp only [List.length_cons]; omega)
        have h3 : (16 : Nat) ^ 8 = 2 ^ 32 := by norm_num
        omega
      rw [if_neg (by simp), if_neg (by omega)]
      rw [Nat.mod_eq_of_lt hlt]
      simp
    · intro hgt
      simp only [width, List.length_cons] at hgt
      have her := (strtox_spec s pos z d tl 8 hx hz hhex hd0 (by norm_num)).2 (by omega)
      simp only [parse_value, hid]
      rw [if_pos hx]
      simp only [her]
      simp
  case F64 =>
    constructor
    · intro hle
      simp only [width, List.length_cons] at hle
      have hok := (strtox_spec s pos z d tl 16 hx hz hhex hd0 (by norm_num)).1 (by omega)
      simp only [parse_value, hid]
      rw [if_pos hx]
      simp only [hok]
      have hlt : hex_val (d :: tl) < 2 ^ 64 := by
        have h1 := hex_val_lt (d :: tl)
        have h2 : (16 : Nat) ^ (d :: tl).length ≤ 16 ^ 16 :=
          Nat.pow_le_pow_right (by norm_num) (by simp only [List.length_cons]; omega)
        have h3 : (16 : Nat) ^ 16 = 2 ^ 64 := by norm_num
        omega
      rw [if_neg (by simp), if_neg (by omega)]
      rw [Nat.mod_eq_of_lt hlt]
      simp
    · intro hgt
      simp only [width, List.length_cons] at hgt
      have her := (strtox_spec s pos z d tl 16 hx hz hhex hd0 (by norm_num)).2 (by omega)
      simp only [parse_value, hid]
      rw [if_pos hx]
      simp only [her]
      simp

theorem claim_C7_witness :
    parse_value fm0 ("x001f".data) 0 U8 = .ok (⟨some U8, 31⟩, 5) ∧
    parse_value fm0 ("x123".data) 0 U8 = .error (.range_error 0) := by
  constructor
  · have h := (claim_C7 U8 fm0 ("x001f".data) 0 2 '1' ['f'] (by decide)
      (by decide) (by decide) (by decide)).1 (by decide)
    simpa using h
  · exact (claim_C7 U8 fm0 ("x123".data) 0 0 '1' ['2', '3'] (by decide)
      (by decide) (by decide) (by decide)).2 (by decide)

theorem claim_C8_witness :
    parse_value fm0 ("-1".data) 0 U8 = .error (.range_error 0) :=
  claim_C8.1 U8 rfl rfl fm0 ("-1".data) 0 (by decide) (by decide)

theorem op_scan_ok (s : List Char) (pos : Nat) (ar : arity_t) (sentinel : Option operator_t) :
    ∀ (l : List operator_t) (op : operator_t) (q : Nat),
    op_scan s pos ar sentinel l = .ok (op, q) →
    ((operator_table op).arity = ar ∨ some op = sentinel) ∧
    strncmp_eq s pos (operator_table op).identifier (ident_size op) = true ∧
    q = pos + ident_size op := by
  intro l
  induction l with
  | nil => intro op q h; simp [op_scan] at h
  | cons o rest ih =>
    intro op q h
    simp only [op_scan] at h
    split at h
    · exact ih op q h
    · split at h
      · rename_i hcond hmatch
        simp only [Except.ok.injEq, Prod.mk.injEq] at h
        obtain ⟨h1, h2⟩ := h
        subst h1
        subst h2
        refine ⟨?_, hmatch, rfl⟩
        by_cases ha : (operator_table o).arity = ar
        · exact Or.inl ha
        · by_cases hs2 : some o = sentinel
          · exact Or.inr hs2
          · exact absurd ⟨ha, hs2⟩ hcond
      · exact ih op q h

theorem strncmp_nul (s : List Char) (p : Nat)
    (h : strncmp_eq s p [] 1 = true) : peek s p = '\x00' := by
  by_cases hc : peek s p = '\x00'
  · exact hc
  · simp [strncmp_eq, hc] at h

theorem parse_operator_end (s : List Char) (pos : Nat) (op : operator_t) (q : Nat)
    (h : parse_operator s pos BINARY (some END_EXPRESSION) = .ok (op, q)) :
    ((operator_table op).arity = BINARY ∨
      (op = END_EXPRESSION ∧ peek s (q - 1) = '\x00')) ∧ 1 ≤ q := by
  unfold parse_operator at h
  have hh := op_scan_ok s (skip_whitespace s pos) BINARY (some END_EXPRESSION) op_list op q h
  have hq1 : 1 ≤ q := by
    rw [hh.2.2]
    have : 1 ≤ ident_size op := Nat.le_max_left 1 _
    omega
  refine ⟨?_, hq1⟩
  rcases hh.1 with ha | hs2
  · exact Or.inl ha
  · injection hs2 with hs2
    subst hs2
    right
    refine ⟨rfl, ?_⟩
    have hm := hh.2.1
    have hnul := strncmp_nul s (skip_whitespace s pos) hm
    rw [hh.2.2]
    have : skip_whitespace s pos + ident_size END_EXPRESSION - 1 = skip_whitespace s pos := by
      have : ident_size END_EXPRESSION = 1 := rfl
      omega
    rw [this]
    exact hnul

theorem binary_prec_ge_one (op : operator_t)
    (h : (operator_table op).arity = BINARY) : 1 ≤ (operator_table op).precedence := by
  cases op <;> first | exact (by decide) | exact absurd h (by decide)

theorem peek_mem (s : List Char) (pos : Nat) (h : pos < s.length) : peek s pos ∈ s := by
  unfold peek
  rw [dif_pos h]
  exact List.get_mem s pos h

theorem compute_op_src (fm : float_model) (vb : Bool) (s : List Char) (mode : encoding_t) :
    ∀ fuel : Nat,
    (∀ pos sent minp v op p tr,
       compute_expression fm vb s mode fuel pos sent minp = .ok (v, op, p, tr) →
       ((operator_table op).precedence ≤ minp ∧
        ∃ q, parse_operator s q BINARY (some sent) = .ok (op, p))) ∧
    (∀ value op0 pos sent minp v op p tr,
       (∃ q, parse_operator s q BINARY (some sent) = .ok (op0, pos)) →
       compute_expr_loop fm vb s mode fuel value op0 pos sent minp = .ok (v, op, p, tr) →
       ((operator_table op).precedence ≤ minp ∧
        ∃ q, parse_operator s q BINARY (some sent) = .ok (op, p))) := by
  intro fuel
  induction fuel with
  | zero =>
    constructor
    · intro pos sent minp v op p tr h
      simp [compute_expression] at h
    · intro value op0 pos sent minp v op p tr _ h
      simp [compute_expr_loop] at h
  | succ fuel IH =>
    obtain ⟨IHe, IHl⟩ := IH
    constructor
    · intro pos sent minp v op p tr h
      simp only [compute_expression] at h
      split at h
      · simp at h
      · rename_i r3 value pos1 tr1 hcv
        split at h
        · simp at h
        · rename_i opp op1 pos2 hpo
          split at h
          · simp at h
          · rename_i r4 v' op' p' tr' hlp
            simp only [Except.ok.injEq, Prod.mk.injEq] at h
            obtain ⟨h1, h2, h3, h4⟩ := h
            subst h1
            subst h2
            subst h3
            exact IHl value op1 pos2 sent minp v' op' p' tr' ⟨pos1, hpo⟩ hlp
    · intro value op0 pos sent minp v op p tr hsrc h
      simp only [compute_expr_loop] at h
      split at h
      · rename_i hprec
        simp only [Except.ok.injEq, Prod.mk.injEq] at h
        obtain ⟨h1, h2, h3, h4⟩ := h
        subst h1
        subst h2
        subst h3
        exact ⟨hprec, hsrc⟩
      · split at h
        · simp at h
        · rename_i r4 nv nop pos1 tr1 hce
          split at h
          · simp at h
          · rename_i r2 v2 tr2 he2
            split at h
            · simp at h
            · rename_i r4b v' op' p' tr' hlp
              simp only [Except.ok.injEq, Prod.mk.injEq] at h
              obtain ⟨h1, h2, h3, h4⟩ := h
              subst h1
              subst h2
              subst h3
              have hsrc2 := (IHe pos sent (operator_table op0).precedence nv nop pos1 tr1 hce).2
              exact IHl v2 nop pos1 sent minp v' op' p' tr' hsrc2 hlp

/-- C10: trailing unconsumed input after a complete top-level expression is
never silently ignored.  The end-of-input sentinel (the empty identifier,
compared over one character) matches only the terminating NUL, so an
operator returned by the binary-or-end scan is either a true binary
operator or `END_EXPRESSION` matched at the string's end; consequently a
successful top-level parse always consumes the whole line (final cursor
beyond the input length), and inputs with trailing text such as `1 2` or
`1 )` raise ParseFault at the trailing token instead of returning the
prefix's value. -/
theorem claim_C10 :
    (∀ (s : List Char) (pos : Nat) (op : operator_t) (q : Nat),
       parse_operator s pos BINARY (some END_EXPRESSION) = .ok (op, q) →
       (operator_table op).arity = BINARY ∨
         (op = END_EXPRESSION ∧ peek s (q - 1) = '\x00')) ∧
    (∀ (fm : float_model) (vb : Bool) (fuel : Nat) (s : List Char) (mode : encoding_t)
       (v : encoded_value) (op : operator_t) (p : Nat) (tr : List String),
       '\x00' ∉ s →
       compute_expression fm vb s mode fuel 0 END_EXPRESSION 0 = .ok (v, op, p, tr) →
       op = END_EXPRESSION ∧ s.length < p) ∧
    (∀ (fm : float_model) (vb : Bool),
       Except.map Prod.fst (evaluate_line fm vb "1 2" U32) = .error (.parse_error 2)) ∧
    (∀ (fm : float_model) (vb : Bool),
       Except.map Prod.fst (evaluate_line fm vb "1 )" U32) = .error (.parse_error 2)) := by
  refine ⟨?_, ?_, ?_, ?_⟩
  · intro s pos op q h
    exact (parse_operator_end s pos op q h).1
  · intro fm vb fuel s mode v op p tr hnul h
    obtain ⟨hprec, q, hq⟩ := (compute_op_src fm vb s mode fuel).1 0 END_EXPRESSION 0 v op p tr h
    obtain ⟨hcase, hq1⟩ := parse_operator_end s q op p hq
    rcases hcase with ha | ⟨rfl, hnl⟩
    · exfalso
      have := binary_prec_ge_one op ha
      omega
    · refine ⟨rfl, ?_⟩
      by_contra hle
      have hlt : p - 1 < s.length := by omega
      have := peek_mem s (p - 1) hlt
      rw [hnl] at this
      exact hnul this
  · intro fm vb
    rw [show evaluate_line fm vb "1 2" U32 =
        handle_input fm vb (ample_fuel ("1 2".data)) ("1 2".data) U32 from rfl]
    rw [handle_input_irrel fm0 fm false vb (ample_fuel ("1 2".data)) ("1 2".data) U32
      (Or.inl rfl)]
    rfl
  · intro fm vb
    rw [show evaluate_line fm vb "1 )" U32 =
        handle_input fm vb (ample_fuel ("1 )".data)) ("1 )".data) U32 from rfl]
    rw [handle_input_irrel fm0 fm false vb (ample_fuel ("1 )".data)) ("1 )".data) U32
      (Or.inl rfl)]
    rfl

theorem claim_C10_witness :
    ((operator_table MULTIPLY).arity = BINARY ∨
      (MULTIPLY = END_EXPRESSION ∧ peek ("1 * 2".data) (3 - 1) = '\x00')) ∧
    (END_EXPRESSION = END_EXPRESSION ∧ ("1".data).length < 2) :=
  ⟨claim_C10.1 ("1 * 2".data) 1 MULTIPLY 3 rfl,
   claim_C10.2.1 fm0 false 10 ("1".data) U32 ⟨some U32, 1⟩ END_EXPRESSION 2 []
     (by decide) rfl⟩
